import Mathlib

/-!
# A verification model of `gcode.py`

This file gives a shallow embedding of the gcode manipulation library
(`Line`, `Layer`, `Gcode` in `gcode.py`) and proves/refutes the frozen
specification claims about it.

Modelling conventions:
* Python strings are modelled as `List Char` (named `Str` below); all the
  Python string primitives the source uses (`split(';', 1)`, `split()`,
  `split(None, 1)`, `split('\n')`, `' '.join`, `in`) are defined
  explicitly below, faithful to CPython semantics on the inputs that occur.
* Python numbers: `int` is `Int`.  A Python `float` produced by this program
  always comes from parsing a decimal literal, so it is modelled exactly as
  a decimal scaled integer `floatV m k`, denoting `m / 10^k`.  (IEEE-754
  rounding and scientific-notation `str()` output are abstracted away: the
  model computes with exact decimal values.)
* Exceptions are modelled with `Except PErr`; `PErr` names the Python
  exceptions that the source can raise (`IndexError` from `args[0]` /
  `split(None,1)[1]`, the re-raised `ValueError` for a malformed argument —
  called `MalformedArgument` by the specification —, `TypeError` from `+=`
  on incompatible values, `KeyError` from `args['X']`, and `ValueError`
  from `min`/`max` on an empty sequence).
* Python dicts keyed by `arg[0]` or `None` are association lists
  (`List (Option Char × Val)`) with Python's assignment semantics
  (`dictSet`): an existing key is updated in place, a new key is appended.
  Claims about dict contents are map-level, so the (hash-driven) iteration
  order of a CPython 2 dict is modelled as insertion order; all claims
  proved here are insensitive to that order.
-/

set_option maxHeartbeats 1600000

abbrev Str := List Char

/-- Shorthand turning a Lean string literal into the `List Char` model. -/
def str (s : String) : Str := s.data

/-- CPython `str.isspace` / whitespace used by `str.split()` (ASCII). -/
def pyIsSpace (c : Char) : Bool :=
  c = ' ' ∨ c = '\t' ∨ c = '\n' ∨ c = '\r' ∨ c = '\x0b' ∨ c = '\x0c'

/-- Python `s.split(';', 1)`: the text before the first `';'`, and
(if a `';'` occurs) the text after it. -/
def splitSemi : Str → Str × Option Str
  | [] => ([], none)
  | c :: t =>
    if c = ';' then ([], some t)
    else
      let r := splitSemi t
      (c :: r.1, r.2)

/-- Helper for `splitWs`: `cur` is the (reversed) token being accumulated. -/
def splitWsGo : Str → Str → List Str
  | [], cur => if cur = [] then [] else [cur.reverse]
  | c :: t, cur =>
    if pyIsSpace c then
      if cur = [] then splitWsGo t [] else cur.reverse :: splitWsGo t []
    else splitWsGo t (c :: cur)

/-- Python `s.split()` (no separator): split on runs of whitespace,
discarding empty pieces. -/
def splitWs (s : Str) : List Str := splitWsGo s []

/-- Python `s.split(None, 1)[1]`: skip leading whitespace, skip the first
token, skip the following whitespace run; `none` when there is no second
element (which makes the subscript raise `IndexError`). -/
def splitNone1 (s : Str) : Option Str :=
  let t1 := s.dropWhile pyIsSpace
  if t1 = [] then none
  else
    let rest := (t1.dropWhile (fun c => ¬ pyIsSpace c)).dropWhile pyIsSpace
    if rest = [] then none else some rest

/-- Python `s.split('\n')`. -/
def splitNl : Str → List Str
  | [] => [[]]
  | c :: t =>
    if c = '\n' then [] :: splitNl t
    else
      match splitNl t with
      | [] => [[c]]          -- unreachable: `splitNl` never returns `[]`
      | h :: r => (c :: h) :: r

/-- Python `' '.join`. -/
def joinSp : List Str → Str
  | [] => []
  | [t] => t
  | t :: ts => t ++ ' ' :: joinSp ts

/-- `leadsWith p s`: `s` starts with `p`. -/
def leadsWith : Str → Str → Bool
  | [], _ => true
  | _ :: _, [] => false
  | a :: p, b :: s => a = b && leadsWith p s

/-- Python `p in s` (substring test). -/
def hasSub (p : Str) : Str → Bool
  | [] => leadsWith p []
  | c :: t => leadsWith p (c :: t) || hasSub p t

/-- Values stored in a line's argument dict: Python `int`, Python `float`
(as the exact decimal `m / 10^k` it was parsed from), or a raw string
(the unlabeled token / M117 payload). -/
inductive Val where
  | intV (n : Int)
  | floatV (m : Int) (k : Nat)
  | strV (s : Str)
  deriving DecidableEq, Repr

/-- The Python exceptions the source can raise. -/
inductive PErr where
  | indexError (line : Str)
  | malformedArgument (line : Str)
  | typeError
  | keyError
  | valueErrorEmpty
  deriving DecidableEq, Repr

/-- The argument dict of a line: keys are `some letter` or `none`
(Python's `None` key). -/
abbrev Args := List (Option Char × Val)

/-- Python dict assignment `d[k] = v`: update in place if present,
else append. -/
def dictSet : Args → Option Char → Val → Args
  | [], k, v => [(k, v)]
  | (k', v') :: t, k, v =>
    if k' = k then (k, v) :: t else (k', v') :: dictSet t k v

/-- Python `d.get(k)` / `d[k]` lookup. -/
def dictGet (d : Args) (k : Option Char) : Option Val :=
  (d.find? (fun p => p.1 = k)).map (·.2)

/-- Digit-string value, `foldl (acc * 10 + digit)` as Python's int parsing
computes it. -/
def digsVal (ds : Str) : Nat :=
  ds.foldl (fun a c => a * 10 + (c.toNat - '0'.toNat)) 0

/-- Sign prefix of a Python numeric literal: `(sign, rest)`. -/
def readSign : Str → Int × Str
  | [] => (1, [])
  | c :: t => if c = '+' then (1, t) else if c = '-' then (-1, t) else (1, c :: t)

/-- Python 2 `int(s)` on a whitespace-free token: an optional sign followed
by one or more ASCII digits.  (The tokens this program passes to `int` come
from `str.split()`, hence never carry whitespace.) -/
def pyInt (s : Str) : Option Int :=
  let (sg, t) := readSign s
  if t ≠ [] ∧ t.all Char.isDigit then some (sg * (digsVal t : Int)) else none

/-- Apply a decimal exponent to a scaled decimal `m / 10^k`. -/
def applyExp (m : Int) (k : Nat) (e : Int) : Val :=
  if e ≥ 0 then
    if e.toNat ≤ k then .floatV m (k - e.toNat)
    else .floatV (m * (10 : Int) ^ (e.toNat - k)) 0
  else .floatV m (k + (-e).toNat)

/-- Exponent part of a float literal (after the `e`/`E`). -/
def parseExp (s : Str) : Option Int :=
  let (sg, t) := readSign s
  if t ≠ [] ∧ t.all Char.isDigit then some (sg * (digsVal t : Int)) else none

/-- The body of Python 2 `float(s)` after the optional sign, restricted to
the decimal grammar `(digits [. digits?] | . digits) ([eE][+-]?digits)?`
(`inf`/`nan` spellings contain no `'.'`, so the source never reaches
`float` with them).  The result is the exact decimal value. -/
def pyFloatCore (sg : Int) (t1 : Str) : Option Val :=
  match t1.dropWhile Char.isDigit with
  | '.' :: t3 =>
    if t1.takeWhile Char.isDigit = [] ∧ t3.takeWhile Char.isDigit = [] then none
    else
      match t3.dropWhile Char.isDigit with
      | [] => some (applyExp
          (sg * (digsVal (t1.takeWhile Char.isDigit ++ t3.takeWhile Char.isDigit) : Int))
          (t3.takeWhile Char.isDigit).length 0)
      | c :: t5 =>
        if c = 'e' ∨ c = 'E' then
          (parseExp t5).map (applyExp
            (sg * (digsVal (t1.takeWhile Char.isDigit ++ t3.takeWhile Char.isDigit) : Int))
            (t3.takeWhile Char.isDigit).length)
        else none
  | c :: t5 =>
    if (c = 'e' ∨ c = 'E') ∧ t1.takeWhile Char.isDigit ≠ [] then
      (parseExp t5).map (applyExp (sg * (digsVal (t1.takeWhile Char.isDigit) : Int)) 0)
    else none
  | [] =>
    if t1.takeWhile Char.isDigit = [] then none
    else some (applyExp (sg * (digsVal (t1.takeWhile Char.isDigit) : Int)) 0 0)

/-- Python 2 `float(s)` on a whitespace-free token, idealized to return
the exact decimal value of the literal; CPython rounds it to the nearest
binary64 (`dOfDec` below).  Acceptance/rejection of a token — all any
approved claim uses — is unaffected by the rounding. -/
def pyFloat (s : Str) : Option Val := pyFloatCore (readSign s).1 (readSign s).2

/-- `float(arg[1:]) if '.' in arg[1:] else int(arg[1:])` from
`Line.__init__`. -/
def pyNum (r : Str) : Option Val :=
  if '.' ∈ r then pyFloat r else (pyInt r).map .intV

instance {ε α : Type _} [DecidableEq ε] [DecidableEq α] : DecidableEq (Except ε α) := fun a b =>
  match a, b with
  | .error e, .error e' =>
    if h : e = e' then .isTrue (by rw [h]) else .isFalse (by simp [h])
  | .error _, .ok _ => .isFalse (by simp)
  | .ok _, .error _ => .isFalse (by simp)
  | .ok x, .ok y =>
    if h : x = y then .isTrue (by rw [h]) else .isFalse (by simp [h])

/-- The structured result of parsing one line of gcode
(`Line` in the source; `self.line` holds the text before the comment,
exactly as the Python constructor leaves it). -/
structure LineS where
  line : Str
  code : Str
  args : Args
  comment : Option Str
  deriving DecidableEq, Repr

/-- One step of the argument loop of `Line.__init__`: classify one token. -/
def argStep (s : Str) (acc : Args) (tok : Str) : Except PErr Args :=
  match tok with
  | [] => .error (.indexError s)   -- `arg[0]` on an empty token; unreachable
  | c :: r =>
    if c.isAlpha then
      match pyNum r with
      | some v => .ok (dictSet acc (some c) v)
      | none => .error (.malformedArgument s)
    else .ok (dictSet acc none (.strV tok))

/-- `Line.__init__` on a raw string (the `else` branch of the constructor;
the `code=`/`args=` branch is only used by `extents_gcode`, which no claim
touches). -/
def parseLine (s : Str) : Except PErr LineS :=
  let pc := splitSemi s
  match splitWs pc.1 with
  | [] => .error (.indexError s)   -- `args[0]` raises IndexError
  | code :: rest =>
    if code = str "M117" then
      match splitNone1 pc.1 with
      | some v => .ok ⟨pc.1, code, [(none, .strV v)], pc.2⟩
      | none => .error (.indexError s)
    else
      match (rest.foldlM (argStep s) []) with
      | .ok args => .ok ⟨pc.1, code, args, pc.2⟩
      | .error e => .error e

/-- `k if k else ''` in `Line.construct`. -/
def keyStr : Option Char → Str
  | some c => [c]
  | none => []

/-- Little-endian decimal digits with explicit fuel (`fuel ≥ n` suffices),
so that the kernel can evaluate it. -/
def natDigsGo : Nat → Nat → List Char
  | _, 0 => []
  | 0, _ => []                -- unreachable when fuel ≥ n
  | fuel + 1, n => Char.ofNat ('0'.toNat + n % 10) :: natDigsGo fuel (n / 10)

/-- Python `str` of a nonnegative integer. -/
def natStr (n : Nat) : Str :=
  if n = 0 then ['0'] else (natDigsGo n n).reverse

/-- Python `str(int)`. -/
def intStr (i : Int) : Str :=
  if i < 0 then '-' :: natStr i.natAbs else natStr i.natAbs

/-- Python `str(float)` on the exact decimal `m / 10^k` of the model:
the sign, then the digits of `|m|` with a decimal point `k` digits from
the right (zero-padded, and with a trailing `.0` when `k = 0`).
This idealizes the real formatter: Python 2 `str(float)` is `%.12g` on
the stored double, which rounds to 12 significant digits and switches to
scientific notation outside `[1e-4, 1e12)`; theorems about `construct`
on float values therefore exclude floats by hypothesis rather than rely
on this printer. -/
def floatStr (m : Int) (k : Nat) : Str :=
  let sign : Str := if m < 0 then ['-'] else []
  let ds := natStr m.natAbs
  if k = 0 then sign ++ ds ++ ['.', '0']
  else
    let ds' := List.replicate (k + 1 - ds.length) '0' ++ ds
    sign ++ ds'.take (ds'.length - k) ++ '.' :: ds'.drop (ds'.length - k)

/-- `'%s' % v` for a stored argument value. -/
def formatVal : Val → Str
  | .intV n => intStr n
  | .floatV m k => floatStr m k
  | .strV s => s

/-- One emitted argument token `'%s%s' % (k if k else '', v)` of
`Line.construct`. -/
def entryTok (p : Option Char × Val) : Str := keyStr p.1 ++ formatVal p.2

/-- `Line.construct`. -/
def constructL (l : LineS) : Str :=
  joinSp (l.code :: l.args.map entryTok) ++
    (match l.comment with
     | some c => if c = [] then [] else ' ' :: ';' :: c
     | none => [])

/-- `Layer` (the `layernum`, `preamble`, `lines`, `postamble` attributes). -/
structure LayerS where
  layernum : Option Nat
  preambleL : List LineS
  lines : List LineS
  postambleL : List LineS
  deriving DecidableEq, Repr

/-- `Layer.__init__`: parse each raw line, dropping lines that are empty or
start with `';'` (`if l and l[0] != ';'`). -/
def mkLayer (ls : List Str) (num : Option Nat) : Except PErr LayerS := do
  let ps ← (ls.filter (fun l => l ≠ [] ∧ l.head? ≠ some ';')).mapM parseLine
  return ⟨num, [], ps, []⟩

/-- The values compared by the `key=` lambdas in `Layer.extents`:
`float('-inf')`, a number (the exact decimal `m / 10^k`), `float('inf')`,
or a string — Python 2 orders any number below any string. -/
inductive PyKey where
  | ninf
  | num (m : Int) (k : Nat)
  | pinf
  | strk (s : Str)

/-- Python 2 string comparison (lexicographic byte order). -/
def strLt : Str → Str → Bool
  | [], [] => false
  | [], _ :: _ => true
  | _ :: _, [] => false
  | a :: s, b :: t => if a = b then strLt s t else decide (a < b)

/-- Python 2 `<` on the values `Layer.extents` compares. -/
def keyLt : PyKey → PyKey → Bool
  | .ninf, .ninf => false
  | .ninf, _ => true
  | .num m1 k1, .num m2 k2 => decide (m1 * 10 ^ k2 < m2 * 10 ^ k1)
  | .num _ _, .pinf => true
  | .num _ _, .strk _ => true
  | .num _ _, .ninf => false
  | .pinf, .strk _ => true
  | .pinf, _ => false
  | .strk s, .strk t => strLt s t
  | .strk _, _ => false

/-- The comparison key of a stored argument value. -/
def valKey : Val → PyKey
  | .intV n => .num n 0
  | .floatV m k => .num m k
  | .strV s => .strk s

/-- Python `min(xs, key=f)`: first element among those with minimal key;
`none` for an empty sequence (where Python raises `ValueError`). -/
def pyMinBy (f : LineS → PyKey) : List LineS → Option LineS
  | [] => none
  | x :: xs => some (xs.foldl (fun best y => if keyLt (f y) (f best) then y else best) x)

/-- Python `max(xs, key=f)` (first among those with maximal key). -/
def pyMaxBy (f : LineS → PyKey) : List LineS → Option LineS
  | [] => none
  | x :: xs => some (xs.foldl (fun best y => if keyLt (f best) (f y) then y else best) x)

/-- The `key=lambda l: l.args.get(ax, dflt)` functions of `Layer.extents`
(`dflt` is `float('inf')` for the `min` calls, `float('-inf')` for the
`max` calls). -/
def axKey (ax : Char) (dflt : PyKey) (l : LineS) : PyKey :=
  match dictGet l.args (some ax) with
  | some v => valKey v
  | none => dflt

/-- One of the four `min`/`max` computations of `Layer.extents`:
`min/max(self.lines, key=lambda l: l.args.get(ax, ±inf)).args[ax]`. -/
def axisGet (L : LayerS) (ax : Char) (isMin : Bool) : Except PErr Val :=
  match (if isMin then pyMinBy (axKey ax .pinf) L.lines
         else pyMaxBy (axKey ax .ninf) L.lines) with
  | none => .error .valueErrorEmpty
  | some l =>
    match dictGet l.args (some ax) with
    | some v => .ok v
    | none => .error .keyError

/-- `Layer.extents`. -/
def extents (L : LayerS) : Except PErr (Val × Val × Val × Val) := do
  let mnx ← axisGet L 'X' true
  let mny ← axisGet L 'Y' true
  let mxx ← axisGet L 'X' false
  let mxy ← axisGet L 'Y' false
  return (mnx, mny, mxx, mxy)

/-- Python `+` on stored values (`none` models `TypeError`).  Float
addition is idealized as exact decimal arithmetic; the program rounds
the sum to the nearest binary64 (see `dAdd` below for the faithful
operation), so exactness claims about float values are settled on `dAdd`
and theorems using `pyAdd` on floats carry hypotheses excluding them. -/
def pyAdd : Val → Val → Option Val
  | .intV a, .intV b => some (.intV (a + b))
  | .intV a, .floatV m k => some (.floatV (a * 10 ^ k + m) k)
  | .floatV m k, .intV b => some (.floatV (m + b * 10 ^ k) k)
  | .floatV m1 k1, .floatV m2 k2 =>
    some (.floatV (m1 * 10 ^ (max k1 k2 - k1) + m2 * 10 ^ (max k1 k2 - k2)) (max k1 k2))
  | .strV s, .strV t => some (.strV (s ++ t))
  | _, _ => none

/-- Python `*` on stored values (`none` models `TypeError`).  Float
multiplication is idealized as exact decimal arithmetic where the
program rounds to the nearest binary64; no claim relies on the exact
value of a float product. -/
def pyMul : Val → Val → Option Val
  | .intV a, .intV b => some (.intV (a * b))
  | .intV a, .floatV m k => some (.floatV (a * m) k)
  | .floatV m k, .intV b => some (.floatV (m * b) k)
  | .floatV m1 k1, .floatV m2 k2 => some (.floatV (m1 * m2) (k1 + k2))
  | .strV s, .intV n => some (.strV ((List.replicate n.toNat s).flatten))
  | .intV n, .strV s => some (.strV ((List.replicate n.toNat s).flatten))
  | _, _ => none

/-- The inner loop of `Layer.shift`/`Layer.multiply` on one line:
`for arg in kwargs: if arg in line.args: line.args[arg] op= kwargs[arg]`.
Keyword-argument names are modelled as single letters, since only
single-letter keys can occur in a parsed line's `args` (any longer name is
a no-op). -/
def lineEdit (op : Val → Val → Option Val) (ds : List (Char × Val)) (l : LineS) :
    Except PErr LineS :=
  ds.foldlM (fun l' cd =>
    match dictGet l'.args (some cd.1) with
    | none => .ok l'
    | some v =>
      match op v cd.2 with
      | some w => .ok ⟨l'.line, l'.code, dictSet l'.args (some cd.1) w, l'.comment⟩
      | none => .error .typeError) l

/-- `Layer.shift` / `Layer.multiply` (they touch `self.lines` only). -/
def layerEdit (op : Val → Val → Option Val) (L : LayerS) (ds : List (Char × Val)) :
    Except PErr LayerS := do
  let ls ← L.lines.mapM (lineEdit op ds)
  return ⟨L.layernum, L.preambleL, ls, L.postambleL⟩

/-- `Layer.shift`. -/
def layerShift (L : LayerS) (ds : List (Char × Val)) : Except PErr LayerS :=
  layerEdit pyAdd L ds

/-- `Layer.multiply`. -/
def layerMultiply (L : LayerS) (ds : List (Char × Val)) : Except PErr LayerS :=
  layerEdit pyMul L ds

/-- `Layer.set_preamble`: parses every `'\n'`-split segment of the text —
with no filtering of empty or comment segments. -/
def set_preamble (L : LayerS) (g : Str) : Except PErr LayerS := do
  let ps ← (splitNl g).mapM parseLine
  return ⟨L.layernum, ps, L.lines, L.postambleL⟩

/-- `Layer.set_postamble`. -/
def set_postamble (L : LayerS) (g : Str) : Except PErr LayerS := do
  let ps ← (splitNl g).mapM parseLine
  return ⟨L.layernum, L.preambleL, L.lines, ps⟩

/-- `Gcode` (the `preamble` and `layers` attributes). -/
structure GcodeS where
  preamble : Option LayerS
  layers : List LayerS
  deriving DecidableEq, Repr

/-- `Gcode.shift` / `Gcode.multiply`:
`for layer in self.layers[layernum:]: layer.op(**kwargs)`. -/
def docEdit (op : Val → Val → Option Val) (g : GcodeS) (n : Nat)
    (ds : List (Char × Val)) : Except PErr GcodeS := do
  let ls ← g.layers.enum.mapM (fun p => if n ≤ p.1 then layerEdit op p.2 ds else .ok p.2)
  return ⟨g.preamble, ls⟩

/-- `Gcode.shift`. -/
def docShift (g : GcodeS) (n : Nat) (ds : List (Char × Val)) : Except PErr GcodeS :=
  docEdit pyAdd g n ds

/-- If `s` begins with a match of `;LAYER:\d+\n` (the pattern
`Gcode.parse` splits on), the remainder after the match. -/
def markerRest (s : Str) : Option Str :=
  if leadsWith (str ";LAYER:") s then
    let r := s.drop 7
    let ds := r.takeWhile Char.isDigit
    let r2 := r.dropWhile Char.isDigit
    if ds = [] then none
    else if r2.head? = some '\n' then some r2.tail else none
  else none

/-- `re.split(r'^;LAYER:\d+\n', s, flags=re.M)`, written with explicit
fuel (`fuel ≥ s.length` suffices) so the kernel can evaluate it.  The
boolean tracks whether the scan position is at a line start (where `^`
can match). -/
def reSplitGo : Nat → Str → Bool → List Str
  | _, [], _ => [[]]
  | 0, _ :: _, _ => [[]]        -- out of fuel: unreachable when fuel ≥ length
  | fuel + 1, c :: t, atStart =>
    match (if atStart then markerRest (c :: t) else none) with
    | some r => [] :: reSplitGo fuel r true
    | none =>
      match reSplitGo fuel t (c = '\n') with
      | [] => [[c]]
      | h :: r => (c :: h) :: r

/-- `re.split(r'^;LAYER:\d+\n', s, flags=re.M)`. -/
def reSplit (s : Str) : List Str := reSplitGo s.length s true

/-- The number of `^;LAYER:\d+\n` matches the split consumes
(same scan as `reSplitGo`). -/
def markerCountGo : Nat → Str → Bool → Nat
  | _, [], _ => 0
  | 0, _ :: _, _ => 0
  | fuel + 1, c :: t, atStart =>
    match (if atStart then markerRest (c :: t) else none) with
    | some r => markerCountGo fuel r true + 1
    | none => markerCountGo fuel t (c = '\n')

/-- The number of newline-terminated `;LAYER:<digits>` marker lines of the
input, counted the way the splitting scan consumes them. -/
def markerCount (s : Str) : Nat := markerCountGo s.length s true

/-- `Z-?\.?\d` after a `Z`, as matched (with backtracking over the two
optional characters) by the tail of `re.match(r'G[01]\s.*Z-?\.?\d+', l)`. -/
def zTail (s : Str) : Bool :=
  let t1 := match s with | '-' :: t => t | t => t
  let t2 := match t1 with | '.' :: t => t | t => t
  match t2 with
  | c :: _ => c.isDigit
  | [] => false

/-- Search for the `Z-?\.?\d+` part anywhere later in the line; `.` in the
regex does not cross a newline. -/
def hasZ : Str → Bool
  | [] => false
  | c :: t => if c = '\n' then false else (c = 'Z' && zTail t) || hasZ t

/-- `re.match(r'G[01]\s.*Z-?\.?\d+', l)`: the "looks like a layer change"
test of heuristic mode. -/
def isLayerChange : Str → Bool
  | 'G' :: d :: w :: rest => (d = '0' ∨ d = '1') ∧ pyIsSpace w ∧ hasZ rest
  | _ => false

/-- The loop state of heuristic-mode `Gcode.parse`. -/
structure HState where
  pre : Option LayerS
  layers : List LayerS
  inPre : Bool
  layernum : Nat
  curr : List Str

/-- One iteration of the heuristic-mode `for l in filestring.split('\n')`
loop of `Gcode.parse`, faithful to the source — including that
`curr_layer = []` sits inside the loop (resetting the accumulator every
iteration) and that `layernum =+ 1` assigns the literal `+1` instead of
incrementing. -/
def heurStep (st : HState) (l : Str) : Except PErr HState :=
  let st0 : HState := ⟨st.pre, st.layers, st.inPre, st.layernum, []⟩
  if isLayerChange l then
    if st0.inPre then do
      let p ← mkLayer st0.curr (some 0)
      return ⟨some p, st0.layers, false, st0.layernum, [l]⟩
    else do
      let ly ← mkLayer st0.curr (some st0.layernum)
      return ⟨st0.pre, st0.layers ++ [ly], st0.inPre, 1, [l]⟩
  else .ok ⟨st0.pre, st0.layers, st0.inPre, st0.layernum, st0.curr ++ [l]⟩

/-- `Gcode.parse` (as invoked by `Gcode.__init__`, which starts from
`preamble = None`, `layers = []`). -/
def gcodeParse (fs : Str) : Except PErr GcodeS :=
  if fs = [] then .ok ⟨none, []⟩
  else if hasSub (str ";LAYER:") fs then
    match reSplit fs with
    | [] => .ok ⟨none, []⟩      -- unreachable: `reSplit` never returns `[]`
    | s0 :: rest => do
      let pre ← mkLayer (splitNl s0) (some 0)
      let ls ← rest.enum.mapM (fun p => mkLayer (splitNl p.2) (some p.1))
      return ⟨some pre, ls⟩
  else do
    let st ← (splitNl fs).foldlM heurStep ⟨none, [], true, 1, []⟩
    let last ← mkLayer st.curr none
    return ⟨st.pre, st.layers ++ [last]⟩

/-- A line of the form `;LAYER:<integer>` (the marker, without requiring a
trailing newline — used to state what the specification calls a marker). -/
def isMarkerLine (l : Str) : Bool :=
  leadsWith (str ";LAYER:") l ∧ l.drop 7 ≠ [] ∧ (l.drop 7).all Char.isDigit

/-- A comparison key that is a number or an infinity (never a string) —
the only keys `Layer.extents` actually compares on layers whose letter
arguments are numeric, which lets the proofs use the linear order of
`WithBot (WithTop ℚ)`. -/
def NumOrInf : PyKey → Prop
  | .strk _ => False
  | _ => True

/-- The value of a numeric-or-infinite comparison key in the linear order
`WithBot (WithTop ℚ)` (strings, excluded by `NumOrInf`, are mapped
arbitrarily to `⊤`). -/
def keyQ : PyKey → WithBot (WithTop ℚ)
  | .ninf => ⊥
  | .num m k => (((((m : ℚ) / 10 ^ k : ℚ)) : WithTop ℚ) : WithBot (WithTop ℚ))
  | .pinf => ((⊤ : WithTop ℚ) : WithBot (WithTop ℚ))
  | .strk _ => ((⊤ : WithTop ℚ) : WithBot (WithTop ℚ))

/-- "Same argument entry value" in the sense of the round-trip claim:
same integer-vs-float-vs-string kind and (numerically) the same value. -/
def valSame : Val → Val → Prop
  | .intV a, .intV b => a = b
  | .floatV m k, .floatV m' k' => m * 10 ^ k' = m' * 10 ^ k
  | .strV s, .strV t => s = t
  | _, _ => False

/-- Numeric stored value (a Python `int` or `float`). -/
def isNumV : Val → Bool
  | .intV _ => true
  | .floatV _ _ => true
  | .strV _ => false

/-- Stored value that is a Python `int`. -/
def isIntV : Val → Bool
  | .intV _ => true
  | _ => false

/-- Stored value that is a Python `float`. -/
def isFloatV : Val → Bool
  | .floatV _ _ => true
  | _ => false

/-- The rational value of a numeric argument (`0` for strings, which every
claim using `valQ` excludes by hypothesis). -/
def valQ : Val → ℚ
  | .intV n => n
  | .floatV m k => (m : ℚ) / 10 ^ k
  | .strV _ => 0

/-- The keys of an argument dict. -/
def dictKeys (d : Args) : List (Option Char) := d.map Prod.fst

/-- What one `shift`/`multiply` pass (pointwise operation `op`, keyword
arguments `ds`) does to a single line: every field except argument values
is untouched, absent arguments stay absent (none is ever introduced or
deleted), letters not named in `ds` and the unlabeled slot keep their
values, and a letter named in `ds` whose value is present is combined with
the delta by `op`. -/
def EditedLine (op : Val → Val → Option Val) (ds : List (Char × Val))
    (l l' : LineS) : Prop :=
  l'.line = l.line ∧ l'.code = l.code ∧ l'.comment = l.comment ∧
  (∀ k, dictGet l.args k = none → dictGet l'.args k = none) ∧
  dictGet l'.args none = dictGet l.args none ∧
  (∀ c, c ∉ ds.map Prod.fst → dictGet l'.args (some c) = dictGet l.args (some c)) ∧
  (∀ c d, (c, d) ∈ ds →
    (dictGet l.args (some c) = none → dictGet l'.args (some c) = none) ∧
    (∀ v, dictGet l.args (some c) = some v →
      ∃ w, op v d = some w ∧ dictGet l'.args (some c) = some w))

/-- Glue split chunks back together with the separator strings between
them (used to state that marker-mode splitting partitions the input with
the marker lines discarded). -/
def glueC : List Str → List Str → Str
  | [], _ => []
  | c :: _, [] => c
  | c :: cs, m :: ms => c ++ m ++ glueC cs ms

/-- A well-formed whitespace-free, semicolon-free, nonempty token. -/
def GoodTok (t : Str) : Prop :=
  t ≠ [] ∧ ∀ c ∈ t, pyIsSpace c = false ∧ c ≠ ';'

/-- The invariant of an argument-dict entry of a parsed non-M117 line:
letter keys hold numbers; the unlabeled slot holds the raw token, which is
a good token not starting with an ASCII letter. -/
def EntryInv : Option Char × Val → Prop
  | (some c, v) => c.isAlpha = true ∧ isNumV v = true
  | (none, v) => ∃ t, v = .strV t ∧ GoodTok t ∧
      ∀ c0, t.head? = some c0 → c0.isAlpha = false

example : parseLine (str "G1 X5 Y-2.5 ;go") =
    .ok ⟨str "G1 X5 Y-2.5 ", str "G1",
         [(some 'X', .intV 5), (some 'Y', .floatV (-25) 1)], some (str "go")⟩ := by decide

example : parseLine (str "M117 Hello World") =
    .ok ⟨str "M117 Hello World", str "M117",
         [(none, .strV (str "Hello World"))], none⟩ := by decide

example : parseLine (str "G1 Xzz") = .error (.malformedArgument (str "G1 Xzz")) := by decide

example : constructL ⟨str "G1 X5 Y-2.5 ", str "G1",
    [(some 'X', .intV 5), (some 'Y', .floatV (-25) 1)], some (str "go")⟩ =
    str "G1 X5 Y-2.5 ;go" := by decide

example : gcodeParse (str "G1 X1\nG1 X2") =
  .ok ⟨none, [⟨none, [], [⟨str "G1 X2", str "G1", [(some 'X', .intV 2)], none⟩], []⟩]⟩ := by decide

example : gcodeParse (str "G1 X1\nG28\nG1 Z1 F3\nG1 X2\nG1 Z2 F3\nG1 X3") =
  .ok ⟨some ⟨some 0, [], [], []⟩,
       [⟨some 1, [], [], []⟩,
        ⟨none, [], [⟨str "G1 X3", str "G1", [(some 'X', .intV 3)], none⟩], []⟩]⟩ := by decide

example : gcodeParse (str "G1 Xzz\nG1 X1") =
  .ok ⟨none, [⟨none, [], [⟨str "G1 X1", str "G1", [(some 'X', .intV 1)], none⟩], []⟩]⟩ := by decide

example : gcodeParse (str "G1 X0\n;LAYER:0\nG1 X1\n;LAYER:1") =
  .ok ⟨some ⟨some 0, [], [⟨str "G1 X0", str "G1", [(some 'X', .intV 0)], none⟩], []⟩,
       [⟨some 0, [], [⟨str "G1 X1", str "G1", [(some 'X', .intV 1)], none⟩], []⟩]⟩ := by decide

example : (splitNl (str "G1 X0\n;LAYER:0\nG1 X1\n;LAYER:1")).countP isMarkerLine = 2 := by decide

example : gcodeParse (str "G28\n;LAYER:7\nG1 X1\n;LAYER:3\nG1 X2\n") =
  .ok ⟨some ⟨some 0, [], [⟨str "G28", str "G28", [], none⟩], []⟩,
       [⟨some 0, [], [⟨str "G1 X1", str "G1", [(some 'X', .intV 1)], none⟩], []⟩,
        ⟨some 1, [], [⟨str "G1 X2", str "G1", [(some 'X', .intV 2)], none⟩], []⟩]⟩ := by decide

example : extents ⟨none, [], [⟨str "G1 X5 Y5", str "G1",
    [(some 'X', .intV 5), (some 'Y', .intV 5)], none⟩], []⟩ =
  .ok (.intV 5, .intV 5, .intV 5, .intV 5) := by decide

example : set_preamble ⟨none, [], [], []⟩ (str "") =
  .error (.indexError []) := by decide

/-! ## IEEE-754 binary64 arithmetic

The embedding above stores each float literal as its exact decimal value
and computes on it exactly.  CPython instead stores the nearest IEEE-754
binary64 value and rounds after every arithmetic operation, so exactness
claims about float values must be checked against the real arithmetic.
The definitions below model it faithfully: `roundF` is correct rounding
(round to nearest, ties to even) of a rational scaled by a power of two,
`dOfDec` is `float()` of a decimal literal, and `dAdd` is Python float
`+` (the exact sum, rounded once) — the operation `Layer.shift` performs
on a float argument. -/

/-- Number of binary digits of `n` (`0` for `0`), with explicit fuel
(`fuel ≥ n` suffices) so the kernel can evaluate it. -/
def bitLenGo : Nat → Nat → Nat
  | 0, _ => 0
  | fuel + 1, n => if n = 0 then 0 else bitLenGo fuel (n / 2) + 1

/-- Number of binary digits of `n`. -/
def bitLen (n : Nat) : Nat := bitLenGo (n + 1) n

/-- `n / d` rounded to the nearest integer, ties to even. -/
def rnDiv (n d : Nat) : Nat :=
  if 2 * (n % d) < d then n / d
  else if d < 2 * (n % d) then n / d + 1
  else if (n / d) % 2 = 0 then n / d else n / d + 1

/-- An IEEE-754 binary64 value.  A finite value is kept in canonical form
`M * 2 ^ E` with `2 ^ 52 ≤ |M| < 2 ^ 53` (normal), or `E = -1074` and
`|M| < 2 ^ 52` (subnormal), or `M = 0 ∧ E = 0`. -/
inductive FDbl where
  | finite (M : Int) (E : Int)
  | inf (pos : Bool)
  | nan
  deriving DecidableEq, Repr

/-- The real number `num / den * 2 ^ e` (`den ≠ 0`) correctly rounded to
binary64: round to nearest, ties to even, with overflow to infinity and
gradual underflow to subnormals. -/
def roundF (num : Int) (den : Nat) (e : Int) : FDbl :=
  if num = 0 then .finite 0 0
  else
    let a := num.natAbs
    let t : Int := 53 - ((bitLen a : Int) - (bitLen den : Int))
    let n := a * 2 ^ t.toNat
    let d := den * 2 ^ (-t).toNat
    let me : Nat × Int :=
      if rnDiv n d < 2 ^ 53 then (rnDiv n d, e - t)
      else if rnDiv n (d * 2) < 2 ^ 53 then (rnDiv n (d * 2), e - t + 1)
      else (2 ^ 52, e - t + 2)
    if 971 < me.2 then .inf (0 < num)
    else if me.2 < -1074 then
      match rnDiv (a * 2 ^ (e + 1074).toNat) (den * 2 ^ (-(e + 1074)).toNat) with
      | 0 => .finite 0 0
      | ms + 1 => .finite (if num < 0 then -((ms + 1 : Nat) : Int) else (ms + 1 : Nat)) (-1074)
    else .finite (if num < 0 then -(me.1 : Int) else me.1) me.2

/-- CPython `float()` of the decimal literal `m / 10 ^ k`: the value the
program actually stores for a parsed float token (`pyFloat` above keeps
the exact decimal instead). -/
def dOfDec (m : Int) (k : Nat) : FDbl := roundF m (10 ^ k) 0

/-- CPython float `+`: the exact sum, correctly rounded once. -/
def dAdd : FDbl → FDbl → FDbl
  | .finite M1 E1, .finite M2 E2 =>
    if E1 ≤ E2 then roundF (M1 + M2 * 2 ^ (E2 - E1).toNat) 1 E1
    else roundF (M2 + M1 * 2 ^ (E1 - E2).toNat) 1 E2
  | .inf p, .finite _ _ => .inf p
  | .finite _ _, .inf p => .inf p
  | .inf p, .inf q => if p = q then .inf p else .nan
  | _, _ => .nan

/-! ## General helper lemmas -/

theorem exBind_ok {ε α β : Type} (x : α) (g : α → Except ε β) :
    (Except.ok x >>= g) = g x := rfl

theorem exBind_error {ε α β : Type} (e : ε) (g : α → Except ε β) :
    ((Except.error e : Except ε α) >>= g) = .error e := rfl

theorem exPure {ε α : Type} (x : α) : (pure x : Except ε α) = .ok x := rfl

theorem mapM_ok_mem {ε α β : Type} (f : α → Except ε β) :
    ∀ (ls : List α) (ys : List β), ls.mapM f = .ok ys → ∀ x ∈ ls, ∃ y, f x = .ok y := by
  intro ls
  induction ls with
  | nil => intro ys h x hx; cases hx
  | cons a t ih =>
    intro ys h x hx
    rw [List.mapM_cons] at h
    cases hfa : f a with
    | error e => rw [hfa, exBind_error] at h; cases h
    | ok b =>
      rw [hfa, exBind_ok] at h
      cases hft : t.mapM f with
      | error e => rw [hft, exBind_error] at h; cases h
      | ok bs =>
        cases hx with
        | head => exact ⟨b, hfa⟩
        | tail _ hxt => exact ih bs hft x hxt

theorem mapM_forall2 {ε α β : Type} (f : α → Except ε β) :
    ∀ (ls : List α) (ys : List β), ls.mapM f = .ok ys →
      List.Forall₂ (fun x y => f x = .ok y) ls ys := by
  intro ls
  induction ls with
  | nil =>
    intro ys h
    rw [List.mapM_nil, exPure] at h
    cases h
    exact List.Forall₂.nil
  | cons a t ih =>
    intro ys h
    rw [List.mapM_cons] at h
    cases hfa : f a with
    | error e => rw [hfa, exBind_error] at h; cases h
    | ok b =>
      rw [hfa, exBind_ok] at h
      cases hft : t.mapM f with
      | error e => rw [hft, exBind_error] at h; cases h
      | ok bs =>
        rw [hft, exBind_ok, exPure] at h
        cases h
        exact List.Forall₂.cons hfa (ih bs hft)

theorem mapM_error_of_mem {ε α β : Type} (f : α → Except ε β) (ls : List α) (x : α)
    (hx : x ∈ ls) (he : ∀ y, f x ≠ .ok y) : ∃ e, ls.mapM f = .error e := by
  induction ls with
  | nil => cases hx
  | cons a t ih =>
    rw [List.mapM_cons]
    cases hfa : f a with
    | error e => exact ⟨e, by rw [exBind_error]⟩
    | ok b =>
      rw [exBind_ok]
      cases hx with
      | head => exact absurd hfa (he b)
      | tail _ hxt =>
        obtain ⟨e, hmt⟩ := ih hxt
        exact ⟨e, by rw [hmt, exBind_error]⟩

theorem parseLine_empty_seg : parseLine [] = .error (.indexError []) := rfl

theorem parseLine_comment_seg (r : Str) :
    parseLine (';' :: r) = .error (.indexError (';' :: r)) := by
  simp [parseLine, splitSemi, splitWs, splitWsGo]

/-! ## Claim theorems -/

/-- **C2** (code bug evidence).  The claim describes heuristic-mode
segmentation as accumulating lines: the preamble should collect everything
before the first layer-start line, layer 1 should start with that line,
and so on.  The source resets its accumulator `curr_layer = []` at the top
of every loop iteration (and `layernum =+ 1` assigns `1` instead of
incrementing), so on the input below the preamble comes out *empty*
(instead of holding `G1 X1` and `G28`), the first closed layer is empty
(instead of starting with `G1 Z1 F3`), and the only surviving content line
is the final one. -/
theorem c2_heuristic_segmentation_code_bug :
    gcodeParse (str "G1 X1\nG28\nG1 Z1 F3\nG1 X2\nG1 Z2 F3\nG1 X3") =
      .ok ⟨some ⟨some 0, [], [], []⟩,
           [⟨some 1, [], [], []⟩,
            ⟨none, [], [⟨str "G1 X3", str "G1", [(some 'X', .intV 3)], none⟩], []⟩]⟩ := by
  decide

/-- **C4** (code bug evidence).  On heuristic-mode input with no
layer-start line the claim says the single resulting layer contains the
entire input; because the source resets `curr_layer` each iteration, the
layer holds only the final line (`G1 X2`), with `G1 X1` silently dropped.
The "exactly one layer, no preamble" part does hold. -/
theorem c4_no_layer_start_code_bug :
    gcodeParse (str "G1 X1\nG1 X2") =
      .ok ⟨none, [⟨none, [], [⟨str "G1 X2", str "G1", [(some 'X', .intV 2)], none⟩], []⟩]⟩ := by
  decide

/-- **C6** (code bug evidence).  A token whose letter-led remainder fails
to parse does raise the fatal `MalformedArgument` error carrying the raw
line when the line is parsed — but in heuristic mode the accumulator-reset
slip drops every line except the last without ever parsing it, so the
malformed line `G1 Xzz` below never aborts the whole parse: `Gcode.parse`
succeeds. -/
theorem c6_malformed_argument_code_bug :
    parseLine (str "G1 Xzz") = .error (.malformedArgument (str "G1 Xzz")) ∧
    gcodeParse (str "G1 Xzz\nG1 X1") =
      .ok ⟨none, [⟨none, [], [⟨str "G1 X1", str "G1", [(some 'X', .intV 1)], none⟩], []⟩]⟩ := by
  exact ⟨by decide, by decide⟩

/-- **C3** (counterexample).  The input below contains exactly two lines
matching `;LAYER:<integer>`, yet parsing yields a document with exactly
*one* layer: the split pattern `^;LAYER:\d+\n` requires a trailing
newline, so the final marker (which ends the file without a newline) does
not split, contradicting the claim that two markers always yield two
layers. -/
theorem c3_marker_split_counterexample :
    (splitNl (str "G1 X0\n;LAYER:0\nG1 X1\n;LAYER:1")).countP isMarkerLine = 2 ∧
    gcodeParse (str "G1 X0\n;LAYER:0\nG1 X1\n;LAYER:1") =
      .ok ⟨some ⟨some 0, [], [⟨str "G1 X0", str "G1", [(some 'X', .intV 0)], none⟩], []⟩,
           [⟨some 0, [], [⟨str "G1 X1", str "G1", [(some 'X', .intV 1)], none⟩], []⟩]⟩ ∧
    (gcodeParse (str "G1 X0\n;LAYER:0\nG1 X1\n;LAYER:1")).map (fun g => g.layers.length) =
      .ok 1 := by
  exact ⟨by decide, by decide, by decide⟩

/-- **C10**.  `set_preamble`/`set_postamble` parse *every* newline-split
segment of their text through the line parser (no filtering, unlike
`Layer.__init__`), and a segment that is empty or starts with `';'` makes
the line parser fail (its `split()` yields no tokens, so `args[0]` raises),
so the whole operation fails instead of installing the lines. -/
theorem c10_set_preamble_postamble_fail (L : LayerS) (t : Str)
    (h : ∃ seg ∈ splitNl t, seg = [] ∨ seg.head? = some ';') :
    (∃ e, set_preamble L t = .error e) ∧ (∃ e, set_postamble L t = .error e) := by
  obtain ⟨seg, hmem, hbad⟩ := h
  have herr : ∀ y, parseLine seg ≠ .ok y := by
    intro y hy
    rcases hbad with h1 | h1
    · subst h1; rw [parseLine_empty_seg] at hy; cases hy
    · cases seg with
      | nil => cases h1
      | cons c r =>
        simp only [List.head?, Option.some.injEq] at h1
        subst h1
        rw [parseLine_comment_seg] at hy
        cases hy
  obtain ⟨e, hme⟩ := mapM_error_of_mem parseLine (splitNl t) seg hmem herr
  constructor
  · exact ⟨e, by simp only [set_preamble, hme]; rfl⟩
  · exact ⟨e, by simp only [set_postamble, hme]; rfl⟩

/-- **C10 witness**: the empty string has an empty newline-split segment,
and both operations fail on it. -/
theorem c10_witness :
    (∃ seg ∈ splitNl (str ""), seg = [] ∨ seg.head? = some ';') ∧
    (∃ e, set_preamble ⟨none, [], [], []⟩ (str "") = .error e) ∧
    (∃ e, set_postamble ⟨none, [], [], []⟩ (str "") = .error e) :=
  ⟨by decide, c10_set_preamble_postamble_fail ⟨none, [], [], []⟩ (str "") (by decide)⟩

/-! ## Dict lemmas -/

theorem dictGet_nil (k : Option Char) : dictGet [] k = none := rfl

theorem dictKeys_nil : dictKeys [] = [] := rfl

theorem dictKeys_cons (k0 : Option Char) (v0 : Val) (t : Args) :
    dictKeys ((k0, v0) :: t) = k0 :: dictKeys t := rfl

theorem dictSet_nil (k : Option Char) (v : Val) : dictSet [] k v = [(k, v)] := rfl

theorem dictSet_cons (k0 : Option Char) (v0 : Val) (t : Args) (k : Option Char) (v : Val) :
    dictSet ((k0, v0) :: t) k v =
      if k0 = k then (k, v) :: t else (k0, v0) :: dictSet t k v := rfl

theorem dictGet_cons (k' : Option Char) (v' : Val) (t : Args) (k : Option Char) :
    dictGet ((k', v') :: t) k = if k' = k then some v' else dictGet t k := by
  by_cases h : k' = k
  · rw [if_pos h]
    unfold dictGet
    rw [List.find?_cons_of_pos _ (by simp [h])]
    rfl
  · rw [if_neg h]
    unfold dictGet
    rw [List.find?_cons_of_neg _ (by simp [h])]

theorem dictGet_dictSet_same (d : Args) (k : Option Char) (v : Val) :
    dictGet (dictSet d k v) k = some v := by
  induction d with
  | nil => rw [dictSet_nil, dictGet_cons, if_pos rfl]
  | cons p t ih =>
    obtain ⟨k0, v0⟩ := p
    rw [dictSet_cons]
    by_cases h : k0 = k
    · rw [if_pos h, dictGet_cons, if_pos rfl]
    · rw [if_neg h, dictGet_cons, if_neg h, ih]

theorem dictGet_dictSet_other (d : Args) (k k' : Option Char) (v : Val) (h : k' ≠ k) :
    dictGet (dictSet d k v) k' = dictGet d k' := by
  induction d with
  | nil => rw [dictSet_nil, dictGet_cons, if_neg (fun hc => h hc.symm), dictGet_nil]
  | cons p t ih =>
    obtain ⟨k0, v0⟩ := p
    rw [dictSet_cons]
    by_cases h0 : k0 = k
    · subst h0
      rw [if_pos rfl, dictGet_cons, dictGet_cons,
        if_neg (fun hc => h hc.symm), if_neg (fun hc => h hc.symm)]
    · rw [if_neg h0, dictGet_cons, dictGet_cons, ih]

theorem dictSet_dictSet_same (d : Args) (k : Option Char) (v w : Val) :
    dictSet (dictSet d k v) k w = dictSet d k w := by
  induction d with
  | nil => rw [dictSet_nil, dictSet_cons, if_pos rfl, dictSet_nil]
  | cons p t ih =>
    obtain ⟨k0, v0⟩ := p
    rw [dictSet_cons]
    by_cases h0 : k0 = k
    · rw [if_pos h0, dictSet_cons, if_pos rfl, dictSet_cons, if_pos h0]
    · rw [if_neg h0, dictSet_cons, if_neg h0, ih, dictSet_cons, if_neg h0]

theorem dictSet_self (d : Args) (k : Option Char) (v : Val)
    (h : dictGet d k = some v) : dictSet d k v = d := by
  induction d with
  | nil => rw [dictGet_nil] at h; cases h
  | cons p t ih =>
    obtain ⟨k0, v0⟩ := p
    rw [dictGet_cons] at h
    rw [dictSet_cons]
    by_cases h0 : k0 = k
    · rw [if_pos h0] at h
      cases h
      rw [if_pos h0, h0]
    · rw [if_neg h0] at h
      rw [if_neg h0, ih h]

theorem dictGet_eq_none_iff (d : Args) (k : Option Char) :
    dictGet d k = none ↔ k ∉ dictKeys d := by
  induction d with
  | nil => simp [dictGet_nil, dictKeys_nil]
  | cons p t ih =>
    obtain ⟨k0, v0⟩ := p
    rw [dictGet_cons, dictKeys_cons]
    by_cases h0 : k0 = k
    · simp [h0]
    · rw [if_neg h0, ih]
      constructor
      · intro hn hk
        rcases List.mem_cons.mp hk with hk | hk
        · exact h0 hk.symm
        · exact hn hk
      · intro hn hk
        exact hn (List.mem_cons_of_mem _ hk)

theorem dictSet_append_of_not_mem (d : Args) (k : Option Char) (v : Val)
    (h : k ∉ dictKeys d) : dictSet d k v = d ++ [(k, v)] := by
  induction d with
  | nil => rw [dictSet_nil]; rfl
  | cons p t ih =>
    obtain ⟨k0, v0⟩ := p
    rw [dictKeys_cons] at h
    have h1 : k0 ≠ k := fun hc => h (hc ▸ List.mem_cons_self _ _)
    have h2 : k ∉ dictKeys t := fun hc => h (List.mem_cons_of_mem _ hc)
    rw [dictSet_cons, if_neg h1, ih h2]
    rfl

theorem dictKeys_dictSet_of_mem (d : Args) (k : Option Char) (v : Val)
    (h : k ∈ dictKeys d) : dictKeys (dictSet d k v) = dictKeys d := by
  induction d with
  | nil => rw [dictKeys_nil] at h; cases h
  | cons p t ih =>
    obtain ⟨k0, v0⟩ := p
    rw [dictSet_cons]
    by_cases h0 : k0 = k
    · rw [if_pos h0, dictKeys_cons, dictKeys_cons, h0]
    · rw [dictKeys_cons] at h
      have h2 : k ∈ dictKeys t := by
        rcases List.mem_cons.mp h with hk | hk
        · exact absurd hk.symm h0
        · exact hk
      rw [if_neg h0, dictKeys_cons, dictKeys_cons, ih h2]

theorem dictKeys_dictSet_nodup (d : Args) (k : Option Char) (v : Val)
    (h : (dictKeys d).Nodup) : (dictKeys (dictSet d k v)).Nodup := by
  by_cases hm : k ∈ dictKeys d
  · rw [dictKeys_dictSet_of_mem d k v hm]; exact h
  · rw [dictSet_append_of_not_mem d k v hm]
    have : dictKeys (d ++ [(k, v)]) = dictKeys d ++ [k] := by
      simp [dictKeys]
    rw [this]
    refine List.Nodup.append h (List.nodup_singleton k) ?_
    intro a ha hak
    rw [List.mem_singleton] at hak
    exact hm (hak ▸ ha)

theorem dictSet_preserves_all {P : Option Char × Val → Prop} (d : Args)
    (k : Option Char) (v : Val) (hd : ∀ p ∈ d, P p) (hkv : P (k, v)) :
    ∀ p ∈ dictSet d k v, P p := by
  induction d with
  | nil =>
    rw [dictSet_nil]
    intro p hp
    rw [List.mem_singleton] at hp
    exact hp ▸ hkv
  | cons q t ih =>
    obtain ⟨k0, v0⟩ := q
    rw [dictSet_cons]
    by_cases h0 : k0 = k
    · rw [if_pos h0]
      intro p hp
      rcases List.mem_cons.mp hp with h | h
      · exact h ▸ hkv
      · exact hd p (List.mem_cons_of_mem _ h)
    · rw [if_neg h0]
      intro p hp
      rcases List.mem_cons.mp hp with h | h
      · exact hd p (h ▸ List.mem_cons_self _ _)
      · exact ih (fun q hq => hd q (List.mem_cons_of_mem _ hq)) p h

/-! ## Shift / multiply lemmas -/

theorem lineEdit_spec (op : Val → Val → Option Val) :
    ∀ (ds : List (Char × Val)), (ds.map Prod.fst).Nodup →
      ∀ (l l' : LineS), lineEdit op ds l = .ok l' → EditedLine op ds l l' := by
  intro ds
  induction ds with
  | nil =>
    intro _ l l' h
    rw [lineEdit, List.foldlM_nil, exPure] at h
    cases h
    refine ⟨rfl, rfl, rfl, fun _ h => h, rfl, fun _ _ => rfl, fun c d hc => ?_⟩
    cases hc
  | cons cd t ih =>
    intro hnd l l' h
    obtain ⟨c, d⟩ := cd
    simp only [List.map_cons, List.nodup_cons] at hnd
    obtain ⟨hc_nmem, hnd_t⟩ := hnd
    simp only [lineEdit, List.foldlM_cons] at h
    cases hget : dictGet l.args (some c) with
    | none =>
      simp only [hget, exBind_ok] at h
      have hih := ih hnd_t l l' h
      obtain ⟨h1, h2, h3, h4, h5, h6, h7⟩ := hih
      refine ⟨h1, h2, h3, h4, h5, ?_, ?_⟩
      · intro c' hc'
        simp only [List.map_cons, List.mem_cons] at hc'
        push_neg at hc'
        exact h6 c' hc'.2
      · intro c' d' hmem
        rcases List.mem_cons.mp hmem with heq | hmem_t
        · cases heq
          constructor
          · intro _; exact h4 (some c) hget
          · intro v hv; rw [hget] at hv; cases hv
        · exact h7 c' d' hmem_t
    | some v =>
      simp only [hget] at h
      cases hop : op v d with
      | none => simp only [hop, exBind_error] at h; cases h
      | some w =>
        simp only [hop, exBind_ok] at h
        have hih := ih hnd_t ⟨l.line, l.code, dictSet l.args (some c) w, l.comment⟩ l' h
        obtain ⟨h1, h2, h3, h4, h5, h6, h7⟩ := hih
        have hg1 : dictGet (dictSet l.args (some c) w) (some c) = some w :=
          dictGet_dictSet_same _ _ _
        have hgo : ∀ k, k ≠ some c →
            dictGet (dictSet l.args (some c) w) k = dictGet l.args k := by
          intro k hk
          exact dictGet_dictSet_other _ _ _ _ hk
        refine ⟨h1, h2, h3, ?_, ?_, ?_, ?_⟩
        · intro k hk
          have hkc : k ≠ some c := by
            intro he; rw [he, hget] at hk; cases hk
          exact h4 k (by rw [show (⟨l.line, l.code, dictSet l.args (some c) w,
            l.comment⟩ : LineS).args = dictSet l.args (some c) w from rfl, hgo k hkc]; exact hk)
        · rw [h5]
          exact hgo none (by simp)
        · intro c' hc'
          simp only [List.map_cons, List.mem_cons] at hc'
          push_neg at hc'
          rw [h6 c' hc'.2]
          exact hgo (some c') (by simp [hc'.1])
        · intro c' d' hmem
          rcases List.mem_cons.mp hmem with heq | hmem_t
          · cases heq
            constructor
            · intro hgn; rw [hget] at hgn; cases hgn
            · intro v' hv'
              rw [hget] at hv'
              cases hv'
              refine ⟨w, hop, ?_⟩
              rw [h6 c hc_nmem]
              exact hg1
          · have hcc : c' ≠ c := by
              intro he
              exact hc_nmem (he ▸ (List.mem_map_of_mem Prod.fst hmem_t))
            have h7' := h7 c' d' hmem_t
            rw [show (⟨l.line, l.code, dictSet l.args (some c) w,
              l.comment⟩ : LineS).args = dictSet l.args (some c) w from rfl] at h7'
            rw [hgo (some c') (by simp [hcc])] at h7'
            exact h7'

theorem layerEdit_spec (op : Val → Val → Option Val) (L : LayerS)
    (ds : List (Char × Val)) (L' : LayerS)
    (hnd : (ds.map Prod.fst).Nodup) (h : layerEdit op L ds = .ok L') :
    L'.layernum = L.layernum ∧ L'.preambleL = L.preambleL ∧
    L'.postambleL = L.postambleL ∧
    List.Forall₂ (EditedLine op ds) L.lines L'.lines := by
  rw [layerEdit] at h
  cases hm : L.lines.mapM (lineEdit op ds) with
  | error e => rw [hm, exBind_error] at h; cases h
  | ok ls =>
    rw [hm, exBind_ok, exPure] at h
    cases h
    refine ⟨rfl, rfl, rfl, ?_⟩
    exact (mapM_forall2 _ _ _ hm).imp (fun {a b} hab => lineEdit_spec op ds hnd a b hab)

/-- **C8**.  `Layer.shift` and `Layer.multiply` modify only the values of
already-present matching letter arguments of lines in `lines`: every other
field of every line is untouched, no argument is introduced or deleted, a
line lacking a given letter is left alone for that letter, and
`preamble_lines` / `postamble_lines` (and `layernum`) are not touched by
either operation. -/
theorem c8_shift_multiply_frame (L : LayerS) (ds : List (Char × Val))
    (hnd : (ds.map Prod.fst).Nodup) :
    (∀ L', layerShift L ds = .ok L' →
      L'.preambleL = L.preambleL ∧ L'.postambleL = L.postambleL ∧
      L'.layernum = L.layernum ∧
      List.Forall₂ (EditedLine pyAdd ds) L.lines L'.lines) ∧
    (∀ L', layerMultiply L ds = .ok L' →
      L'.preambleL = L.preambleL ∧ L'.postambleL = L.postambleL ∧
      L'.layernum = L.layernum ∧
      List.Forall₂ (EditedLine pyMul ds) L.lines L'.lines) := by
  constructor
  · intro L' h
    obtain ⟨h1, h2, h3, h4⟩ := layerEdit_spec pyAdd L ds L' hnd h
    exact ⟨h2, h3, h1, h4⟩
  · intro L' h
    obtain ⟨h1, h2, h3, h4⟩ := layerEdit_spec pyMul L ds L' hnd h
    exact ⟨h2, h3, h1, h4⟩

/-- **C8 witness**: a concrete one-line layer, shifted and multiplied by
`{X: 1}`. -/
theorem c8_witness :
    (([(('X' : Char), Val.intV 1)]).map Prod.fst).Nodup ∧
    layerShift ⟨some 1, [], [⟨str "G1 X2", str "G1", [(some 'X', Val.intV 2)], none⟩], []⟩
        [('X', Val.intV 1)] =
      .ok ⟨some 1, [], [⟨str "G1 X2", str "G1", [(some 'X', Val.intV 3)], none⟩], []⟩ ∧
    List.Forall₂ (EditedLine pyAdd [('X', Val.intV 1)])
      [⟨str "G1 X2", str "G1", [(some 'X', Val.intV 2)], none⟩]
      [⟨str "G1 X2", str "G1", [(some 'X', Val.intV 3)], none⟩] ∧
    layerMultiply ⟨some 1, [], [⟨str "G1 X2", str "G1", [(some 'X', Val.intV 2)], none⟩], []⟩
        [('X', Val.intV 1)] =
      .ok ⟨some 1, [], [⟨str "G1 X2", str "G1", [(some 'X', Val.intV 2)], none⟩], []⟩ ∧
    List.Forall₂ (EditedLine pyMul [('X', Val.intV 1)])
      [⟨str "G1 X2", str "G1", [(some 'X', Val.intV 2)], none⟩]
      [⟨str "G1 X2", str "G1", [(some 'X', Val.intV 2)], none⟩] := by
  refine ⟨by decide, by decide, ?_, by decide, ?_⟩
  · exact ((c8_shift_multiply_frame
      ⟨some 1, [], [⟨str "G1 X2", str "G1", [(some 'X', Val.intV 2)], none⟩], []⟩
      [('X', Val.intV 1)] (by decide)).1
      ⟨some 1, [], [⟨str "G1 X2", str "G1", [(some 'X', Val.intV 3)], none⟩], []⟩
      (by decide)).2.2.2
  · exact ((c8_shift_multiply_frame
      ⟨some 1, [], [⟨str "G1 X2", str "G1", [(some 'X', Val.intV 2)], none⟩], []⟩
      [('X', Val.intV 1)] (by decide)).2
      ⟨some 1, [], [⟨str "G1 X2", str "G1", [(some 'X', Val.intV 2)], none⟩], []⟩
      (by decide)).2.2.2

theorem pyAdd_intV_cancel (v : Val) (a : Int) (hv : isNumV v = true) :
    ∃ w, pyAdd v (.intV a) = some w ∧ pyAdd w (.intV (-a)) = some v := by
  cases v with
  | intV n =>
    refine ⟨.intV (n + a), rfl, ?_⟩
    show some (Val.intV (n + a + -a)) = some (Val.intV n)
    congr 2
    ring
  | floatV m k =>
    refine ⟨.floatV (m + a * 10 ^ k) k, rfl, ?_⟩
    show some (Val.floatV (m + a * 10 ^ k + -a * 10 ^ k) k) = some (Val.floatV m k)
    congr 2
    ring
  | strV s => simp [isNumV] at hv

theorem lineShift_cancel (c : Char) (a : Int) (l : LineS)
    (h : ∀ v, dictGet l.args (some c) = some v → isNumV v = true) :
    ∃ l1, lineEdit pyAdd [(c, .intV a)] l = .ok l1 ∧
      lineEdit pyAdd [(c, .intV (-a))] l1 = .ok l := by
  cases hget : dictGet l.args (some c) with
  | none =>
    refine ⟨l, ?_, ?_⟩ <;>
      simp only [lineEdit, List.foldlM_cons, List.foldlM_nil, hget, exBind_ok, exPure]
  | some v =>
    obtain ⟨w, hw, hww⟩ := pyAdd_intV_cancel v a (h v hget)
    refine ⟨⟨l.line, l.code, dictSet l.args (some c) w, l.comment⟩, ?_, ?_⟩
    · simp only [lineEdit, List.foldlM_cons, List.foldlM_nil, hget, hw, exBind_ok, exPure]
    · have hg1 : dictGet (dictSet l.args (some c) w) (some c) = some w :=
        dictGet_dictSet_same _ _ _
      simp only [lineEdit, List.foldlM_cons, List.foldlM_nil, hg1, hww, exBind_ok, exPure]
      rw [dictSet_dictSet_same, dictSet_self l.args (some c) v hget]

theorem mapM_shift_cancel (c : Char) (a : Int) :
    ∀ (ls : List LineS),
      (∀ l ∈ ls, ∀ v, dictGet l.args (some c) = some v → isNumV v = true) →
      ∃ ls1, ls.mapM (lineEdit pyAdd [(c, .intV a)]) = .ok ls1 ∧
        ls1.mapM (lineEdit pyAdd [(c, .intV (-a))]) = .ok ls := by
  intro ls
  induction ls with
  | nil => exact fun _ => ⟨[], by rw [List.mapM_nil]; rfl, by rw [List.mapM_nil]; rfl⟩
  | cons x t ih =>
    intro h
    obtain ⟨x1, hx1, hx2⟩ := lineShift_cancel c a x (h x (List.mem_cons_self _ _))
    obtain ⟨t1, ht1, ht2⟩ := ih (fun l hl => h l (List.mem_cons_of_mem _ hl))
    refine ⟨x1 :: t1, ?_, ?_⟩
    · rw [List.mapM_cons, hx1, exBind_ok, ht1, exBind_ok, exPure]
    · rw [List.mapM_cons, hx2, exBind_ok, ht2, exBind_ok, exPure]

/-- **C9** (counterexample).  The claim fails on float-valued `X` args:
the program stores IEEE-754 doubles and `args['X'] += 5` rounds after
each addition, so for a parsed line `G1 X0.1` — whose stored value is
`float('0.1') = 7205759403792794 * 2 ^ (-56)` — shifting `X` by `+5` and
then by `-5` leaves `7205759403792768 * 2 ^ (-56)` (that is,
`0.09999999999999964`), not the original value. -/
theorem c9_shift_inverse_counterexample :
    dOfDec 1 1 = .finite 7205759403792794 (-56) ∧
    dAdd (dAdd (dOfDec 1 1) (dOfDec 5 0)) (dOfDec (-5) 0) =
      .finite 7205759403792768 (-56) ∧
    dAdd (dAdd (dOfDec 1 1) (dOfDec 5 0)) (dOfDec (-5) 0) ≠ dOfDec 1 1 := by
  decide

/-- **C9** (amended).  On a layer whose `X` arguments (where present) are
Python ints, `shift({X: +5})` followed by `shift({X: -5})` restores the
layer — in particular every line's `X` argument — exactly: int
arithmetic in the program is exact.  (For float `X` values the program's
IEEE-754 rounding breaks the round trip; see the counterexample.) -/
theorem c9_shift_inverse (L : LayerS)
    (h : ∀ l ∈ L.lines, ∀ v, dictGet l.args (some 'X') = some v → isIntV v = true) :
    ∃ L1, layerShift L [('X', .intV 5)] = .ok L1 ∧
      layerShift L1 [('X', .intV (-5))] = .ok L := by
  have hnum : ∀ l ∈ L.lines, ∀ v, dictGet l.args (some 'X') = some v →
      isNumV v = true := by
    intro l hl v hv
    have hint := h l hl v hv
    cases v with
    | intV n => rfl
    | floatV m k => cases hint
    | strV s => cases hint
  obtain ⟨ls1, h1, h2⟩ := mapM_shift_cancel 'X' 5 L.lines hnum
  refine ⟨⟨L.layernum, L.preambleL, ls1, L.postambleL⟩, ?_, ?_⟩
  · rw [layerShift, layerEdit, h1, exBind_ok, exPure]
  · rw [layerShift, layerEdit]
    show (ls1.mapM (lineEdit pyAdd [('X', .intV (-5))]) >>= fun ls =>
      pure ⟨L.layernum, L.preambleL, ls, L.postambleL⟩ : Except PErr LayerS) = .ok L
    rw [h2, exBind_ok, exPure]

/-- **C9 witness**: a concrete two-line layer with integer `X` args (one
line also lacking `X` entirely via a `Y`-only line). -/
theorem c9_witness :
    (∀ l ∈ (([⟨str "G1 X2", str "G1", [(some 'X', Val.intV 2)], none⟩,
        ⟨str "G1 Y1", str "G1", [(some 'Y', Val.intV 1)], none⟩]) : List LineS),
      ∀ v, dictGet l.args (some 'X') = some v → isIntV v = true) ∧
    ∃ L1, layerShift ⟨some 2, [],
        [⟨str "G1 X2", str "G1", [(some 'X', Val.intV 2)], none⟩,
         ⟨str "G1 Y1", str "G1", [(some 'Y', Val.intV 1)], none⟩], []⟩
        [('X', .intV 5)] = .ok L1 ∧
      layerShift L1 [('X', .intV (-5))] = .ok ⟨some 2, [],
        [⟨str "G1 X2", str "G1", [(some 'X', Val.intV 2)], none⟩,
         ⟨str "G1 Y1", str "G1", [(some 'Y', Val.intV 1)], none⟩], []⟩ :=
  ⟨by decide, c9_shift_inverse _ (by decide)⟩

theorem enumFrom_mapM_spec (op : Val → Val → Option Val) (ds : List (Char × Val)) (n : Nat) :
    ∀ (layers ls' : List LayerS) (i : Nat),
      ((layers.enumFrom i).mapM fun p =>
        if n ≤ p.1 then layerEdit op p.2 ds else .ok p.2) = .ok ls' →
      ls'.length = layers.length ∧
      ∀ j L, layers.get? j = some L →
        ∃ L', ls'.get? j = some L' ∧
          (i + j < n → L' = L) ∧ (n ≤ i + j → layerEdit op L ds = .ok L') := by
  intro layers
  induction layers with
  | nil =>
    intro ls' i h
    rw [show List.enumFrom i ([] : List LayerS) = [] from rfl, List.mapM_nil, exPure] at h
    cases h
    exact ⟨rfl, fun j L hL => by cases hL⟩
  | cons x t ih =>
    intro ls' i h
    rw [show List.enumFrom i (x :: t) = (i, x) :: List.enumFrom (i + 1) t from rfl,
      List.mapM_cons] at h
    cases hx : (if n ≤ i then layerEdit op x ds else .ok x) with
    | error e => rw [hx, exBind_error] at h; cases h
    | ok x1 =>
      rw [hx, exBind_ok] at h
      cases hrest : ((List.enumFrom (i + 1) t).mapM fun p =>
          if n ≤ p.1 then layerEdit op p.2 ds else .ok p.2) with
      | error e => rw [hrest, exBind_error] at h; cases h
      | ok t1 =>
        rw [hrest, exBind_ok, exPure] at h
        cases h
        obtain ⟨hlen, hget⟩ := ih t1 (i + 1) hrest
        refine ⟨by simp [hlen], ?_⟩
        intro j L hL
        cases j with
        | zero =>
          rw [show (x :: t).get? 0 = some x from rfl] at hL
          cases hL
          refine ⟨x1, rfl, ?_, ?_⟩
          · intro hin
            have : ¬ n ≤ i := by omega
            rw [if_neg this] at hx
            cases hx
            rfl
          · intro hni
            rw [if_pos (by omega : n ≤ i)] at hx
            exact hx
        | succ j' =>
          rw [show (x :: t).get? (j' + 1) = t.get? j' from rfl] at hL
          obtain ⟨L', hL', hlt, hge⟩ := hget j' L hL
          refine ⟨L', hL', ?_, ?_⟩
          · intro hin
            exact hlt (by omega)
          · intro hni
            exact hge (by omega)

/-- **C7**.  `Gcode.shift(from_layer_index, deltas)` applies the layer
shift to every layer at position ≥ `from_layer_index`, leaves every
earlier layer untouched, and never shifts the preamble; the shifted layers
are modified exactly as `Layer.shift` modifies them (per-line `EditedLine`
with `pyAdd`, so a `Y`-bearing line's `Y` drops by 10 when
`ds = [('Y', -10)]`, and `Y`-less lines are untouched). -/
theorem c7_doc_shift (g : GcodeS) (n : Nat) (ds : List (Char × Val)) (g' : GcodeS)
    (hnd : (ds.map Prod.fst).Nodup)
    (h : docShift g n ds = .ok g') :
    g'.preamble = g.preamble ∧
    g'.layers.length = g.layers.length ∧
    (∀ j L, j < n → g.layers.get? j = some L → g'.layers.get? j = some L) ∧
    (∀ j L, n ≤ j → g.layers.get? j = some L →
      ∃ L', g'.layers.get? j = some L' ∧ layerShift L ds = .ok L' ∧
        L'.layernum = L.layernum ∧ L'.preambleL = L.preambleL ∧
        L'.postambleL = L.postambleL ∧
        List.Forall₂ (EditedLine pyAdd ds) L.lines L'.lines) := by
  rw [docShift, docEdit] at h
  cases hm : (g.layers.enum.mapM fun p =>
      if n ≤ p.1 then layerEdit pyAdd p.2 ds else .ok p.2) with
  | error e => rw [hm, exBind_error] at h; cases h
  | ok ls =>
    rw [hm, exBind_ok, exPure] at h
    cases h
    obtain ⟨hlen, hget⟩ := enumFrom_mapM_spec pyAdd ds n g.layers ls 0 hm
    refine ⟨rfl, hlen, ?_, ?_⟩
    · intro j L hj hL
      obtain ⟨L', hL', hlt, _⟩ := hget j L hL
      rw [hL', hlt (by omega)]
    · intro j L hj hL
      obtain ⟨L', hL', _, hge⟩ := hget j L hL
      have hedit : layerEdit pyAdd L ds = .ok L' := hge (by omega)
      obtain ⟨e1, e2, e3, e4⟩ := layerEdit_spec pyAdd L ds L' hnd hedit
      exact ⟨L', hL', hedit, e1, e2, e3, e4⟩

/-- **C7 witness**: a five-layer document shifted by `{Y: -10}` from
layer 2 on. -/
theorem c7_witness :
    ((([(('Y' : Char), Val.intV (-10))]).map Prod.fst).Nodup) ∧
    ∃ g', docShift
        ⟨some ⟨some 0, [], [⟨str "G1 Y9", str "G1", [(some 'Y', Val.intV 9)], none⟩], []⟩,
         [⟨some 0, [], [⟨str "G1 Y0", str "G1", [(some 'Y', Val.intV 0)], none⟩], []⟩,
          ⟨some 1, [], [⟨str "G1 Y1", str "G1", [(some 'Y', Val.intV 1)], none⟩], []⟩,
          ⟨some 2, [], [⟨str "G1 Y2", str "G1", [(some 'Y', Val.intV 2)], none⟩], []⟩,
          ⟨some 3, [], [⟨str "G1 Y3", str "G1", [(some 'Y', Val.intV 3)], none⟩], []⟩,
          ⟨some 4, [], [⟨str "G1 X4", str "G1", [(some 'X', Val.intV 4)], none⟩], []⟩]⟩
        2 [('Y', Val.intV (-10))] = .ok g' ∧
      g'.preamble = some ⟨some 0, [],
        [⟨str "G1 Y9", str "G1", [(some 'Y', Val.intV 9)], none⟩], []⟩ ∧
      g'.layers = [
        ⟨some 0, [], [⟨str "G1 Y0", str "G1", [(some 'Y', Val.intV 0)], none⟩], []⟩,
        ⟨some 1, [], [⟨str "G1 Y1", str "G1", [(some 'Y', Val.intV 1)], none⟩], []⟩,
        ⟨some 2, [], [⟨str "G1 Y2", str "G1", [(some 'Y', Val.intV (-8))], none⟩], []⟩,
        ⟨some 3, [], [⟨str "G1 Y3", str "G1", [(some 'Y', Val.intV (-7))], none⟩], []⟩,
        ⟨some 4, [], [⟨str "G1 X4", str "G1", [(some 'X', Val.intV 4)], none⟩], []⟩] ∧
      (∀ j L, j < 2 →
        (GcodeS.mk (some ⟨some 0, [],
            [⟨str "G1 Y9", str "G1", [(some 'Y', Val.intV 9)], none⟩], []⟩)
          [⟨some 0, [], [⟨str "G1 Y0", str "G1", [(some 'Y', Val.intV 0)], none⟩], []⟩,
           ⟨some 1, [], [⟨str "G1 Y1", str "G1", [(some 'Y', Val.intV 1)], none⟩], []⟩,
           ⟨some 2, [], [⟨str "G1 Y2", str "G1", [(some 'Y', Val.intV 2)], none⟩], []⟩,
           ⟨some 3, [], [⟨str "G1 Y3", str "G1", [(some 'Y', Val.intV 3)], none⟩], []⟩,
           ⟨some 4, [], [⟨str "G1 X4", str "G1", [(some 'X', Val.intV 4)], none⟩], []⟩]).layers.get? j
            = some L → g'.layers.get? j = some L) := by
  refine ⟨by decide, ?_⟩
  have h : docShift
      ⟨some ⟨some 0, [], [⟨str "G1 Y9", str "G1", [(some 'Y', Val.intV 9)], none⟩], []⟩,
       [⟨some 0, [], [⟨str "G1 Y0", str "G1", [(some 'Y', Val.intV 0)], none⟩], []⟩,
        ⟨some 1, [], [⟨str "G1 Y1", str "G1", [(some 'Y', Val.intV 1)], none⟩], []⟩,
        ⟨some 2, [], [⟨str "G1 Y2", str "G1", [(some 'Y', Val.intV 2)], none⟩], []⟩,
        ⟨some 3, [], [⟨str "G1 Y3", str "G1", [(some 'Y', Val.intV 3)], none⟩], []⟩,
        ⟨some 4, [], [⟨str "G1 X4", str "G1", [(some 'X', Val.intV 4)], none⟩], []⟩]⟩
      2 [('Y', Val.intV (-10))] =
      .ok ⟨some ⟨some 0, [], [⟨str "G1 Y9", str "G1", [(some 'Y', Val.intV 9)], none⟩], []⟩,
       [⟨some 0, [], [⟨str "G1 Y0", str "G1", [(some 'Y', Val.intV 0)], none⟩], []⟩,
        ⟨some 1, [], [⟨str "G1 Y1", str "G1", [(some 'Y', Val.intV 1)], none⟩], []⟩,
        ⟨some 2, [], [⟨str "G1 Y2", str "G1", [(some 'Y', Val.intV (-8))], none⟩], []⟩,
        ⟨some 3, [], [⟨str "G1 Y3", str "G1", [(some 'Y', Val.intV (-7))], none⟩], []⟩,
        ⟨some 4, [], [⟨str "G1 X4", str "G1", [(some 'X', Val.intV 4)], none⟩], []⟩]⟩ := by
    decide
  obtain ⟨c1, _, c3, _⟩ := c7_doc_shift _ 2 [('Y', Val.intV (-10))] _ (by decide) h
  exact ⟨_, h, by rw [c1], by rfl, c3⟩

/-! ## Extents lemmas -/

theorem keyQ_valKey (v : Val) (hv : isNumV v = true) :
    keyQ (valKey v) = ((valQ v : WithTop ℚ) : WithBot (WithTop ℚ)) := by
  cases v with
  | intV n => simp [valKey, keyQ, valQ]
  | floatV m k => simp [valKey, keyQ, valQ]
  | strV s => simp [isNumV] at hv

theorem valKey_numOrInf (v : Val) (hv : isNumV v = true) : NumOrInf (valKey v) := by
  cases v with
  | intV n => trivial
  | floatV m k => trivial
  | strV s => simp [isNumV] at hv

theorem keyLt_iff (a b : PyKey) (ha : NumOrInf a) (hb : NumOrInf b) :
    keyLt a b = true ↔ keyQ a < keyQ b := by
  cases a with
  | strk s => exact absurd ha (by simp [NumOrInf])
  | ninf =>
    cases b with
    | strk s => exact absurd hb (by simp [NumOrInf])
    | ninf => simp [keyLt, keyQ]
    | num m k => simp [keyLt, keyQ, WithBot.bot_lt_coe]
    | pinf => simp [keyLt, keyQ, WithBot.bot_lt_coe]
  | num m1 k1 =>
    cases b with
    | strk s => exact absurd hb (by simp [NumOrInf])
    | ninf => simp [keyLt, keyQ]
    | pinf =>
      constructor
      · intro _
        exact WithBot.coe_lt_coe.mpr (WithTop.coe_lt_top _)
      · intro _
        rfl
    | num m2 k2 =>
      rw [show keyLt (.num m1 k1) (.num m2 k2) =
        decide (m1 * 10 ^ k2 < m2 * 10 ^ k1) from rfl]
      rw [decide_eq_true_iff]
      rw [show keyQ (.num m1 k1) =
        ((((m1 : ℚ) / 10 ^ k1 : ℚ) : WithTop ℚ) : WithBot (WithTop ℚ)) from rfl,
        show keyQ (.num m2 k2) =
        ((((m2 : ℚ) / 10 ^ k2 : ℚ) : WithTop ℚ) : WithBot (WithTop ℚ)) from rfl]
      rw [WithBot.coe_lt_coe, WithTop.coe_lt_coe]
      rw [div_lt_div_iff₀ (by positivity) (by positivity)]
      constructor
      · intro h
        exact_mod_cast h
      · intro h
        exact_mod_cast h
  | pinf =>
    cases b with
    | strk s => exact absurd hb (by simp [NumOrInf])
    | ninf => simp [keyLt, keyQ]
    | num m k => simp [keyLt, keyQ, WithBot.coe_lt_coe]
    | pinf => simp [keyLt, keyQ]

theorem keyLt_false_le (a b : PyKey) (ha : NumOrInf a) (hb : NumOrInf b)
    (h : keyLt a b = false) : keyQ b ≤ keyQ a := by
  by_contra hc
  push_neg at hc
  rw [show keyLt a b = false ↔ ¬ keyLt a b = true by simp] at h
  exact h ((keyLt_iff a b ha hb).mpr hc)

theorem foldl_min_spec (f : LineS → PyKey) :
    ∀ (xs : List LineS) (x : LineS), NumOrInf (f x) → (∀ y ∈ xs, NumOrInf (f y)) →
      ∃ r, xs.foldl (fun best y => if keyLt (f y) (f best) then y else best) x = r ∧
        r ∈ x :: xs ∧ NumOrInf (f r) ∧ keyQ (f r) ≤ keyQ (f x) ∧
        ∀ y ∈ xs, keyQ (f r) ≤ keyQ (f y) := by
  intro xs
  induction xs with
  | nil =>
    intro x hx _
    exact ⟨x, rfl, List.mem_cons_self _ _, hx, le_refl _, by intro y hy; cases hy⟩
  | cons y t ih =>
    intro x hx hall
    have hy : NumOrInf (f y) := hall y (List.mem_cons_self _ _)
    cases hc : keyLt (f y) (f x) with
    | true =>
      have hlt : keyQ (f y) < keyQ (f x) := (keyLt_iff _ _ hy hx).mp hc
      obtain ⟨r, hr, hmem, hrn, hrx, hall'⟩ :=
        ih y hy (fun z hz => hall z (List.mem_cons_of_mem _ hz))
      refine ⟨r, ?_, ?_, hrn, ?_, ?_⟩
      · rw [List.foldl_cons, if_pos hc]; exact hr
      · rcases List.mem_cons.mp hmem with h | h
        · exact h ▸ List.mem_cons_of_mem _ (List.mem_cons_self _ _)
        · exact List.mem_cons_of_mem _ (List.mem_cons_of_mem _ h)
      · exact le_trans hrx (le_of_lt hlt)
      · intro z hz
        rcases List.mem_cons.mp hz with h | h
        · exact h ▸ hrx
        · exact hall' z h
    | false =>
      have hge : keyQ (f x) ≤ keyQ (f y) := keyLt_false_le _ _ hy hx hc
      obtain ⟨r, hr, hmem, hrn, hrx, hall'⟩ :=
        ih x hx (fun z hz => hall z (List.mem_cons_of_mem _ hz))
      refine ⟨r, ?_, ?_, hrn, hrx, ?_⟩
      · rw [List.foldl_cons, if_neg (by simp [hc])]; exact hr
      · rcases List.mem_cons.mp hmem with h | h
        · exact h ▸ List.mem_cons_self _ _
        · exact List.mem_cons_of_mem _ (List.mem_cons_of_mem _ h)
      · intro z hz
        rcases List.mem_cons.mp hz with h | h
        · exact h ▸ le_trans hrx hge
        · exact hall' z h

theorem foldl_max_spec (f : LineS → PyKey) :
    ∀ (xs : List LineS) (x : LineS), NumOrInf (f x) → (∀ y ∈ xs, NumOrInf (f y)) →
      ∃ r, xs.foldl (fun best y => if keyLt (f best) (f y) then y else best) x = r ∧
        r ∈ x :: xs ∧ NumOrInf (f r) ∧ keyQ (f x) ≤ keyQ (f r) ∧
        ∀ y ∈ xs, keyQ (f y) ≤ keyQ (f r) := by
  intro xs
  induction xs with
  | nil =>
    intro x hx _
    exact ⟨x, rfl, List.mem_cons_self _ _, hx, le_refl _, by intro y hy; cases hy⟩
  | cons y t ih =>
    intro x hx hall
    have hy : NumOrInf (f y) := hall y (List.mem_cons_self _ _)
    cases hc : keyLt (f x) (f y) with
    | true =>
      have hlt : keyQ (f x) < keyQ (f y) := (keyLt_iff _ _ hx hy).mp hc
      obtain ⟨r, hr, hmem, hrn, hrx, hall'⟩ :=
        ih y hy (fun z hz => hall z (List.mem_cons_of_mem _ hz))
      refine ⟨r, ?_, ?_, hrn, ?_, ?_⟩
      · rw [List.foldl_cons, if_pos hc]; exact hr
      · rcases List.mem_cons.mp hmem with h | h
        · exact h ▸ List.mem_cons_of_mem _ (List.mem_cons_self _ _)
        · exact List.mem_cons_of_mem _ (List.mem_cons_of_mem _ h)
      · exact le_trans (le_of_lt hlt) hrx
      · intro z hz
        rcases List.mem_cons.mp hz with h | h
        · exact h ▸ hrx
        · exact hall' z h
    | false =>
      have hge : keyQ (f y) ≤ keyQ (f x) := keyLt_false_le _ _ hx hy hc
      obtain ⟨r, hr, hmem, hrn, hrx, hall'⟩ :=
        ih x hx (fun z hz => hall z (List.mem_cons_of_mem _ hz))
      refine ⟨r, ?_, ?_, hrn, hrx, ?_⟩
      · rw [List.foldl_cons, if_neg (by simp [hc])]; exact hr
      · rcases List.mem_cons.mp hmem with h | h
        · exact h ▸ List.mem_cons_self _ _
        · exact List.mem_cons_of_mem _ (List.mem_cons_of_mem _ h)
      · intro z hz
        rcases List.mem_cons.mp hz with h | h
        · exact h ▸ le_trans hge hrx
        · exact hall' z h

theorem axKey_numOrInf (ax : Char) (dflt : PyKey) (hd : NumOrInf dflt) (l : LineS)
    (h : ∀ v, dictGet l.args (some ax) = some v → isNumV v = true) :
    NumOrInf (axKey ax dflt l) := by
  unfold axKey
  cases hg : dictGet l.args (some ax) with
  | none => exact hd
  | some v => exact valKey_numOrInf v (h v hg)

theorem axKey_of_get (ax : Char) (dflt : PyKey) (l : LineS) (v : Val)
    (h : dictGet l.args (some ax) = some v) : axKey ax dflt l = valKey v := by
  unfold axKey
  rw [h]

theorem axKey_of_none (ax : Char) (dflt : PyKey) (l : LineS)
    (h : dictGet l.args (some ax) = none) : axKey ax dflt l = dflt := by
  unfold axKey
  rw [h]

theorem axisGet_min_spec (L : LayerS) (ax : Char)
    (hnum : ∀ l ∈ L.lines, ∀ v, dictGet l.args (some ax) = some v → isNumV v = true)
    (hex : ∃ l ∈ L.lines, (dictGet l.args (some ax)).isSome) :
    ∃ v, axisGet L ax true = .ok v ∧ isNumV v = true ∧
      (∃ l ∈ L.lines, dictGet l.args (some ax) = some v) ∧
      (∀ l ∈ L.lines, ∀ w, dictGet l.args (some ax) = some w → valQ v ≤ valQ w) := by
  obtain ⟨l0, hl0, hl0s⟩ := hex
  obtain ⟨v0, hv0⟩ := Option.isSome_iff_exists.mp hl0s
  cases hls : L.lines with
  | nil => rw [hls] at hl0; cases hl0
  | cons x xs =>
    have hallN : ∀ y ∈ x :: xs, NumOrInf (axKey ax .pinf y) := by
      intro y hy
      exact axKey_numOrInf ax .pinf trivial y (fun v hv => hnum y (hls ▸ hy) v hv)
    obtain ⟨r, hr, hmem, hrn, hrx, hall'⟩ :=
      foldl_min_spec (axKey ax .pinf) xs x (hallN x (List.mem_cons_self _ _))
        (fun y hy => hallN y (List.mem_cons_of_mem _ hy))
    have hminall : ∀ y ∈ x :: xs, keyQ (axKey ax .pinf r) ≤ keyQ (axKey ax .pinf y) := by
      intro y hy
      rcases List.mem_cons.mp hy with h | h
      · exact h ▸ hrx
      · exact hall' y h
    have hmin : pyMinBy (axKey ax .pinf) L.lines = some r := by
      rw [hls]
      rw [show pyMinBy (axKey ax .pinf) (x :: xs) =
        some (xs.foldl (fun best y =>
          if keyLt (axKey ax .pinf y) (axKey ax .pinf best) then y else best) x) from rfl]
      rw [hr]
    cases hgr : dictGet r.args (some ax) with
    | none =>
      exfalso
      have h1 : keyQ (axKey ax .pinf r) ≤ keyQ (axKey ax .pinf l0) :=
        hminall l0 (hls ▸ hl0)
      rw [axKey_of_none ax .pinf r hgr, axKey_of_get ax .pinf l0 v0 hv0,
        keyQ_valKey v0 (hnum l0 hl0 v0 hv0)] at h1
      rw [show keyQ PyKey.pinf = ((⊤ : WithTop ℚ) : WithBot (WithTop ℚ)) from rfl] at h1
      have h2 : (⊤ : WithTop ℚ) ≤ ((valQ v0 : ℚ) : WithTop ℚ) := WithBot.coe_le_coe.mp h1
      exact (WithTop.coe_ne_top (a := (valQ v0 : ℚ))) (top_le_iff.mp h2)
    | some vr =>
      have hax : axisGet L ax true = .ok vr := by
        show (match pyMinBy (axKey ax .pinf) L.lines with
              | none => (.error .valueErrorEmpty : Except PErr Val)
              | some l =>
                match dictGet l.args (some ax) with
                | some v => .ok v
                | none => .error .keyError) = .ok vr
        rw [hmin]
        show (match dictGet r.args (some ax) with
              | some v => (.ok v : Except PErr Val)
              | none => .error .keyError) = .ok vr
        rw [hgr]
      have hvrn : isNumV vr = true := hnum r (hls ▸ hmem) vr hgr
      refine ⟨vr, hax, hvrn, ⟨r, hls ▸ hmem, hgr⟩, ?_⟩
      intro l hl w hw
      have hlL : l ∈ L.lines := by rw [hls]; exact hl
      have h1 : keyQ (axKey ax .pinf r) ≤ keyQ (axKey ax .pinf l) := hminall l hl
      rw [axKey_of_get ax .pinf r vr hgr, axKey_of_get ax .pinf l w hw,
        keyQ_valKey vr hvrn, keyQ_valKey w (hnum l hlL w hw)] at h1
      exact_mod_cast h1

theorem axisGet_max_spec (L : LayerS) (ax : Char)
    (hnum : ∀ l ∈ L.lines, ∀ v, dictGet l.args (some ax) = some v → isNumV v = true)
    (hex : ∃ l ∈ L.lines, (dictGet l.args (some ax)).isSome) :
    ∃ v, axisGet L ax false = .ok v ∧ isNumV v = true ∧
      (∃ l ∈ L.lines, dictGet l.args (some ax) = some v) ∧
      (∀ l ∈ L.lines, ∀ w, dictGet l.args (some ax) = some w → valQ w ≤ valQ v) := by
  obtain ⟨l0, hl0, hl0s⟩ := hex
  obtain ⟨v0, hv0⟩ := Option.isSome_iff_exists.mp hl0s
  cases hls : L.lines with
  | nil => rw [hls] at hl0; cases hl0
  | cons x xs =>
    have hallN : ∀ y ∈ x :: xs, NumOrInf (axKey ax .ninf y) := by
      intro y hy
      exact axKey_numOrInf ax .ninf trivial y (fun v hv => hnum y (hls ▸ hy) v hv)
    obtain ⟨r, hr, hmem, hrn, hrx, hall'⟩ :=
      foldl_max_spec (axKey ax .ninf) xs x (hallN x (List.mem_cons_self _ _))
        (fun y hy => hallN y (List.mem_cons_of_mem _ hy))
    have hmaxall : ∀ y ∈ x :: xs, keyQ (axKey ax .ninf y) ≤ keyQ (axKey ax .ninf r) := by
      intro y hy
      rcases List.mem_cons.mp hy with h | h
      · exact h ▸ hrx
      · exact hall' y h
    have hmax : pyMaxBy (axKey ax .ninf) L.lines = some r := by
      rw [hls]
      rw [show pyMaxBy (axKey ax .ninf) (x :: xs) =
        some (xs.foldl (fun best y =>
          if keyLt (axKey ax .ninf best) (axKey ax .ninf y) then y else best) x) from rfl]
      rw [hr]
    cases hgr : dictGet r.args (some ax) with
    | none =>
      exfalso
      have h1 : keyQ (axKey ax .ninf l0) ≤ keyQ (axKey ax .ninf r) :=
        hmaxall l0 (hls ▸ hl0)
      rw [axKey_of_none ax .ninf r hgr, axKey_of_get ax .ninf l0 v0 hv0,
        keyQ_valKey v0 (hnum l0 hl0 v0 hv0)] at h1
      rw [show keyQ PyKey.ninf = (⊥ : WithBot (WithTop ℚ)) from rfl] at h1
      exact (WithBot.coe_ne_bot (a := ((valQ v0 : ℚ) : WithTop ℚ))) (le_bot_iff.mp h1)
    | some vr =>
      have hax : axisGet L ax false = .ok vr := by
        show (match pyMaxBy (axKey ax .ninf) L.lines with
              | none => (.error .valueErrorEmpty : Except PErr Val)
              | some l =>
                match dictGet l.args (some ax) with
                | some v => .ok v
                | none => .error .keyError) = .ok vr
        rw [hmax]
        show (match dictGet r.args (some ax) with
              | some v => (.ok v : Except PErr Val)
              | none => .error .keyError) = .ok vr
        rw [hgr]
      have hvrn : isNumV vr = true := hnum r (hls ▸ hmem) vr hgr
      refine ⟨vr, hax, hvrn, ⟨r, hls ▸ hmem, hgr⟩, ?_⟩
      intro l hl w hw
      have hlL : l ∈ L.lines := by rw [hls]; exact hl
      have h1 : keyQ (axKey ax .ninf l) ≤ keyQ (axKey ax .ninf r) := hmaxall l hl
      rw [axKey_of_get ax .ninf r vr hgr, axKey_of_get ax .ninf l w hw,
        keyQ_valKey vr hvrn, keyQ_valKey w (hnum l hlL w hw)] at h1
      exact_mod_cast h1

/-- **C5**.  For a layer in which some line carries an `X` argument and
some line carries a `Y` argument (and letter arguments are numeric, as on
every parsed layer), `extents()` returns per axis the minimum and maximum
of exactly the values carried by lines that have that argument: each
returned value is carried by some line, lines lacking the argument
contribute nothing, and the min/max inequalities hold over exactly the
carriers. -/
theorem c5_extents_minmax (L : LayerS)
    (hnumX : ∀ l ∈ L.lines, ∀ v, dictGet l.args (some 'X') = some v → isNumV v = true)
    (hnumY : ∀ l ∈ L.lines, ∀ v, dictGet l.args (some 'Y') = some v → isNumV v = true)
    (hexX : ∃ l ∈ L.lines, (dictGet l.args (some 'X')).isSome)
    (hexY : ∃ l ∈ L.lines, (dictGet l.args (some 'Y')).isSome) :
    ∃ mnx mny mxx mxy, extents L = .ok (mnx, mny, mxx, mxy) ∧
      ((∃ l ∈ L.lines, dictGet l.args (some 'X') = some mnx) ∧
        ∀ l ∈ L.lines, ∀ w, dictGet l.args (some 'X') = some w → valQ mnx ≤ valQ w) ∧
      ((∃ l ∈ L.lines, dictGet l.args (some 'Y') = some mny) ∧
        ∀ l ∈ L.lines, ∀ w, dictGet l.args (some 'Y') = some w → valQ mny ≤ valQ w) ∧
      ((∃ l ∈ L.lines, dictGet l.args (some 'X') = some mxx) ∧
        ∀ l ∈ L.lines, ∀ w, dictGet l.args (some 'X') = some w → valQ w ≤ valQ mxx) ∧
      ((∃ l ∈ L.lines, dictGet l.args (some 'Y') = some mxy) ∧
        ∀ l ∈ L.lines, ∀ w, dictGet l.args (some 'Y') = some w → valQ w ≤ valQ mxy) := by
  obtain ⟨mnx, h1, _, e1, o1⟩ := axisGet_min_spec L 'X' hnumX hexX
  obtain ⟨mny, h2, _, e2, o2⟩ := axisGet_min_spec L 'Y' hnumY hexY
  obtain ⟨mxx, h3, _, e3, o3⟩ := axisGet_max_spec L 'X' hnumX hexX
  obtain ⟨mxy, h4, _, e4, o4⟩ := axisGet_max_spec L 'Y' hnumY hexY
  refine ⟨mnx, mny, mxx, mxy, ?_, ⟨e1, o1⟩, ⟨e2, o2⟩, ⟨e3, o3⟩, ⟨e4, o4⟩⟩
  rw [extents]
  rw [h1, exBind_ok, h2, exBind_ok, h3, exBind_ok, h4, exBind_ok, exPure]

/-- **C5 witness**: the layer with the single line `G1 X5 Y5` has extents
`(5, 5, 5, 5)`. -/
theorem c5_witness :
    (∃ l ∈ ([⟨str "G1 X5 Y5", str "G1",
        [(some 'X', Val.intV 5), (some 'Y', Val.intV 5)], none⟩] : List LineS),
      (dictGet l.args (some 'X')).isSome) ∧
    extents ⟨none, [],
        [⟨str "G1 X5 Y5", str "G1",
          [(some 'X', Val.intV 5), (some 'Y', Val.intV 5)], none⟩], []⟩ =
      .ok (Val.intV 5, Val.intV 5, Val.intV 5, Val.intV 5) ∧
    (∃ mnx mny mxx mxy,
      extents ⟨none, [],
        [⟨str "G1 X5 Y5", str "G1",
          [(some 'X', Val.intV 5), (some 'Y', Val.intV 5)], none⟩], []⟩ =
        .ok (mnx, mny, mxx, mxy) ∧
      ((∃ l ∈ ([⟨str "G1 X5 Y5", str "G1",
          [(some 'X', Val.intV 5), (some 'Y', Val.intV 5)], none⟩] : List LineS),
          dictGet l.args (some 'X') = some mnx) ∧
        ∀ l ∈ ([⟨str "G1 X5 Y5", str "G1",
          [(some 'X', Val.intV 5), (some 'Y', Val.intV 5)], none⟩] : List LineS),
          ∀ w, dictGet l.args (some 'X') = some w → valQ mnx ≤ valQ w) ∧
      ((∃ l ∈ ([⟨str "G1 X5 Y5", str "G1",
          [(some 'X', Val.intV 5), (some 'Y', Val.intV 5)], none⟩] : List LineS),
          dictGet l.args (some 'Y') = some mny) ∧
        ∀ l ∈ ([⟨str "G1 X5 Y5", str "G1",
          [(some 'X', Val.intV 5), (some 'Y', Val.intV 5)], none⟩] : List LineS),
          ∀ w, dictGet l.args (some 'Y') = some w → valQ mny ≤ valQ w) ∧
      ((∃ l ∈ ([⟨str "G1 X5 Y5", str "G1",
          [(some 'X', Val.intV 5), (some 'Y', Val.intV 5)], none⟩] : List LineS),
          dictGet l.args (some 'X') = some mxx) ∧
        ∀ l ∈ ([⟨str "G1 X5 Y5", str "G1",
          [(some 'X', Val.intV 5), (some 'Y', Val.intV 5)], none⟩] : List LineS),
          ∀ w, dictGet l.args (some 'X') = some w → valQ w ≤ valQ mxx) ∧
      ((∃ l ∈ ([⟨str "G1 X5 Y5", str "G1",
          [(some 'X', Val.intV 5), (some 'Y', Val.intV 5)], none⟩] : List LineS),
          dictGet l.args (some 'Y') = some mxy) ∧
        ∀ l ∈ ([⟨str "G1 X5 Y5", str "G1",
          [(some 'X', Val.intV 5), (some 'Y', Val.intV 5)], none⟩] : List LineS),
          ∀ w, dictGet l.args (some 'Y') = some w → valQ w ≤ valQ mxy)) :=
  ⟨by decide, by decide,
   c5_extents_minmax _ (by decide) (by decide) (by decide) (by decide)⟩

/-! ## Marker-mode splitting lemmas -/

theorem leadsWith_iff : ∀ (p s : Str), leadsWith p s = true ↔ ∃ t, s = p ++ t := by
  intro p
  induction p with
  | nil =>
    intro s
    constructor
    · intro _; exact ⟨s, rfl⟩
    · intro _; rfl
  | cons a p ih =>
    intro s
    cases s with
    | nil =>
      constructor
      · intro h; cases h
      · intro ⟨t, ht⟩; cases ht
    | cons b s' =>
      rw [show leadsWith (a :: p) (b :: s') = (decide (a = b) && leadsWith p s') from rfl]
      rw [Bool.and_eq_true, decide_eq_true_iff, ih s']
      constructor
      · intro ⟨hab, t, ht⟩
        exact ⟨t, by rw [hab, ht]; rfl⟩
      · intro ⟨t, ht⟩
        cases ht
        exact ⟨rfl, t, rfl⟩

theorem takeWhile_all {p : Char → Bool} : ∀ (l : Str), (l.takeWhile p).all p = true := by
  intro l
  induction l with
  | nil => rfl
  | cons c t ih =>
    by_cases h : p c
    · rw [List.takeWhile_cons_of_pos h]
      simp [h, ih]
    · rw [List.takeWhile_cons_of_neg (by simp [h])]
      rfl

theorem markerRest_shape (s r : Str) (h : markerRest s = some r) :
    ∃ ds, ds ≠ [] ∧ ds.all Char.isDigit = true ∧
      s = str ";LAYER:" ++ (ds ++ '\n' :: r) := by
  unfold markerRest at h
  by_cases hlw : leadsWith (str ";LAYER:") s = true
  · rw [if_pos hlw] at h
    obtain ⟨t, ht⟩ := (leadsWith_iff _ s).mp hlw
    subst ht
    rw [show (7 : Nat) = (str ";LAYER:").length from rfl, List.drop_left] at h
    by_cases hds : t.takeWhile Char.isDigit = []
    · rw [if_pos hds] at h
      cases h
    · rw [if_neg hds] at h
      refine ⟨t.takeWhile Char.isDigit, hds, takeWhile_all t, ?_⟩
      have hsplit : t.takeWhile Char.isDigit ++ t.dropWhile Char.isDigit = t :=
        List.takeWhile_append_dropWhile Char.isDigit t
      cases hdw : t.dropWhile Char.isDigit with
      | nil => rw [hdw] at h; simp at h
      | cons c r2 =>
        rw [hdw] at h
        by_cases hc : c = '\n'
        · subst hc
          rw [if_pos (by rfl)] at h
          have hr : r2 = r := by
            have := Option.some.inj h
            simpa using this
          subst hr
          congr 1
          conv_lhs => rw [← hsplit, hdw]
        · rw [if_neg (by simp [hc])] at h
          cases h
  · rw [if_neg hlw] at h
    cases h

theorem markerRest_length (s r : Str) (h : markerRest s = some r) :
    r.length + 9 ≤ s.length := by
  obtain ⟨ds, hne, _, hs⟩ := markerRest_shape s r h
  rw [hs]
  have h7 : (str ";LAYER:").length = 7 := rfl
  have h1 : 1 ≤ ds.length := by
    cases ds with
    | nil => exact absurd rfl hne
    | cons x t => simp
  simp only [List.length_append, List.length_cons, h7]
  omega

theorem reSplitGo_nil (fuel : Nat) (b : Bool) : reSplitGo fuel [] b = [[]] := by
  cases fuel <;> rfl

theorem markerCountGo_nil (fuel : Nat) (b : Bool) : markerCountGo fuel [] b = 0 := by
  cases fuel <;> rfl

theorem reSplitGo_succ_some (fuel : Nat) (c : Char) (t r : Str) (b : Bool)
    (h : (if b then markerRest (c :: t) else none) = some r) :
    reSplitGo (fuel + 1) (c :: t) b = [] :: reSplitGo fuel r true := by
  rw [show reSplitGo (fuel + 1) (c :: t) b =
    (match (if b then markerRest (c :: t) else none) with
     | some r => [] :: reSplitGo fuel r true
     | none =>
       match reSplitGo fuel t (c = '\n') with
       | [] => [[c]]
       | h :: rr => (c :: h) :: rr) from rfl]
  rw [h]

theorem reSplitGo_succ_none (fuel : Nat) (c : Char) (t : Str) (b : Bool)
    (h : (if b then markerRest (c :: t) else none) = none) :
    reSplitGo (fuel + 1) (c :: t) b =
      match reSplitGo fuel t (c = '\n') with
      | [] => [[c]]
      | h :: rr => (c :: h) :: rr := by
  rw [show reSplitGo (fuel + 1) (c :: t) b =
    (match (if b then markerRest (c :: t) else none) with
     | some r => [] :: reSplitGo fuel r true
     | none =>
       match reSplitGo fuel t (c = '\n') with
       | [] => [[c]]
       | h :: rr => (c :: h) :: rr) from rfl]
  rw [h]

theorem markerCountGo_succ_some (fuel : Nat) (c : Char) (t r : Str) (b : Bool)
    (h : (if b then markerRest (c :: t) else none) = some r) :
    markerCountGo (fuel + 1) (c :: t) b = markerCountGo fuel r true + 1 := by
  rw [show markerCountGo (fuel + 1) (c :: t) b =
    (match (if b then markerRest (c :: t) else none) with
     | some r => markerCountGo fuel r true + 1
     | none => markerCountGo fuel t (c = '\n')) from rfl]
  rw [h]

theorem markerCountGo_succ_none (fuel : Nat) (c : Char) (t : Str) (b : Bool)
    (h : (if b then markerRest (c :: t) else none) = none) :
    markerCountGo (fuel + 1) (c :: t) b = markerCountGo fuel t (c = '\n') := by
  rw [show markerCountGo (fuel + 1) (c :: t) b =
    (match (if b then markerRest (c :: t) else none) with
     | some r => markerCountGo fuel r true + 1
     | none => markerCountGo fuel t (c = '\n')) from rfl]
  rw [h]

theorem ifMarker_some (c : Char) (t r : Str) (b : Bool)
    (h : (if b then markerRest (c :: t) else none) = some r) :
    markerRest (c :: t) = some r := by
  cases b with
  | true => exact h
  | false => cases h

theorem reSplitGo_length : ∀ (fuel : Nat) (s : Str) (b : Bool), s.length ≤ fuel →
    (reSplitGo fuel s b).length = markerCountGo fuel s b + 1 := by
  intro fuel
  induction fuel with
  | zero =>
    intro s b hs
    cases s with
    | nil => rfl
    | cons c t => simp at hs
  | succ fuel ih =>
    intro s b hs
    cases s with
    | nil => rfl
    | cons c t =>
      cases hm : (if b then markerRest (c :: t) else none) with
      | some r =>
        have hr := ifMarker_some c t r b hm
        have hlen := markerRest_length _ _ hr
        simp only [List.length_cons] at hs hlen
        have hrl : r.length ≤ fuel := by omega
        rw [reSplitGo_succ_some fuel c t r b hm, markerCountGo_succ_some fuel c t r b hm]
        simp [ih r true hrl]
      | none =>
        have htl : t.length ≤ fuel := by
          simp only [List.length_cons] at hs
          omega
        have hrec := ih t (c = '\n') htl
        rw [reSplitGo_succ_none fuel c t b hm, markerCountGo_succ_none fuel c t b hm]
        cases hrecv : reSplitGo fuel t (c = '\n') with
        | nil => rw [hrecv] at hrec; simp at hrec
        | cons h rr =>
          rw [hrecv] at hrec
          simp at hrec ⊢
          omega

theorem glueC_cons_head (c : Char) (h : Str) (cs ms : List Str) :
    glueC ((c :: h) :: cs) ms = c :: glueC (h :: cs) ms := by
  cases ms with
  | nil => rfl
  | cons m ms' => rfl

theorem reSplitGo_glue : ∀ (fuel : Nat) (s : Str) (b : Bool), s.length ≤ fuel →
    ∃ ms, (∀ m ∈ ms, ∃ ds, ds ≠ [] ∧ ds.all Char.isDigit = true ∧
        m = str ";LAYER:" ++ ds ++ ['\n']) ∧
      ms.length = markerCountGo fuel s b ∧
      glueC (reSplitGo fuel s b) ms = s := by
  intro fuel
  induction fuel with
  | zero =>
    intro s b hs
    cases s with
    | nil => exact ⟨[], by simp, by rw [markerCountGo_nil]; rfl, by rw [reSplitGo_nil]; rfl⟩
    | cons c t => simp at hs
  | succ fuel ih =>
    intro s b hs
    cases s with
    | nil => exact ⟨[], by simp, by rw [markerCountGo_nil]; rfl, by rw [reSplitGo_nil]; rfl⟩
    | cons c t =>
      cases hm : (if b then markerRest (c :: t) else none) with
      | some r =>
        have hr := ifMarker_some c t r b hm
        obtain ⟨ds, hne, hdig, hshape⟩ := markerRest_shape _ _ hr
        have hlen := markerRest_length _ _ hr
        simp only [List.length_cons] at hs hlen
        have hrl : r.length ≤ fuel := by omega
        obtain ⟨ms', hms1, hms2, hms3⟩ := ih r true hrl
        rw [reSplitGo_succ_some fuel c t r b hm, markerCountGo_succ_some fuel c t r b hm]
        refine ⟨(str ";LAYER:" ++ ds ++ ['\n']) :: ms', ?_, by simp [hms2], ?_⟩
        · intro m hmm
          rcases List.mem_cons.mp hmm with h | h
          · exact ⟨ds, hne, hdig, h⟩
          · exact hms1 m h
        · have hchunks : reSplitGo fuel r true ≠ [] := by
            intro hnil
            have := reSplitGo_length fuel r true hrl
            rw [hnil] at this
            simp at this
          cases hch : reSplitGo fuel r true with
          | nil => exact absurd hch hchunks
          | cons ch chs =>
            rw [show glueC ([] :: ch :: chs) ((str ";LAYER:" ++ ds ++ ['\n']) :: ms') =
              [] ++ (str ";LAYER:" ++ ds ++ ['\n']) ++ glueC (ch :: chs) ms' from rfl]
            rw [hch] at hms3
            rw [hms3, hshape]
            simp
      | none =>
        have htl : t.length ≤ fuel := by
          simp only [List.length_cons] at hs
          omega
        obtain ⟨ms, hms1, hms2, hms3⟩ := ih t (c = '\n') htl
        have hrec := reSplitGo_length fuel t (c = '\n') htl
        rw [reSplitGo_succ_none fuel c t b hm, markerCountGo_succ_none fuel c t b hm]
        cases hrecv : reSplitGo fuel t (c = '\n') with
        | nil => rw [hrecv] at hrec; simp at hrec
        | cons h rr =>
          rw [hrecv] at hms3
          refine ⟨ms, hms1, hms2, ?_⟩
          rw [glueC_cons_head]
          rw [hms3]

theorem mkLayer_layernum (ls : List Str) (n : Option Nat) (L : LayerS)
    (h : mkLayer ls n = .ok L) : L.layernum = n := by
  rw [mkLayer] at h
  cases hm : (ls.filter (fun l => l ≠ [] ∧ l.head? ≠ some ';')).mapM parseLine with
  | error e => rw [hm, exBind_error] at h; cases h
  | ok ps => rw [hm, exBind_ok, exPure] at h; cases h; rfl

theorem enum_mkLayer_spec :
    ∀ (chunks : List Str) (ls : List LayerS) (i : Nat),
      ((List.enumFrom i chunks).mapM fun p => mkLayer (splitNl p.2) (some p.1)) = .ok ls →
      ls.length = chunks.length ∧
      ∀ j ch, chunks.get? j = some ch →
        ∃ L, ls.get? j = some L ∧ mkLayer (splitNl ch) (some (i + j)) = .ok L := by
  intro chunks
  induction chunks with
  | nil =>
    intro ls i h
    rw [show List.enumFrom i ([] : List Str) = [] from rfl, List.mapM_nil, exPure] at h
    cases h
    exact ⟨rfl, fun j ch hj => by cases hj⟩
  | cons x t ih =>
    intro ls i h
    rw [show List.enumFrom i (x :: t) = (i, x) :: List.enumFrom (i + 1) t from rfl,
      List.mapM_cons] at h
    cases hx : mkLayer (splitNl x) (some i) with
    | error e => rw [hx, exBind_error] at h; cases h
    | ok L0 =>
      rw [hx, exBind_ok] at h
      cases hrest : ((List.enumFrom (i + 1) t).mapM fun p =>
          mkLayer (splitNl p.2) (some p.1)) with
      | error e => rw [hrest, exBind_error] at h; cases h
      | ok ls1 =>
        rw [hrest, exBind_ok, exPure] at h
        cases h
        obtain ⟨hlen, hspec⟩ := ih ls1 (i + 1) hrest
        refine ⟨by simp [hlen], ?_⟩
        intro j ch hj
        cases j with
        | zero =>
          rw [show (x :: t).get? 0 = some x from rfl] at hj
          cases hj
          exact ⟨L0, rfl, by rw [show i + 0 = i from rfl]; exact hx⟩
        | succ j' =>
          rw [show (x :: t).get? (j' + 1) = t.get? j' from rfl] at hj
          obtain ⟨L, hL, hmk⟩ := hspec j' ch hj
          exact ⟨L, hL, by rw [show i + (j' + 1) = (i + 1) + j' by omega]; exact hmk⟩

theorem gcodeParse_marker_cons (fs : Str) (hne : fs ≠ [])
    (hm : hasSub (str ";LAYER:") fs = true) (c0 : Str) (cs : List Str)
    (hre : reSplit fs = c0 :: cs) :
    gcodeParse fs = (do
      let pre ← mkLayer (splitNl c0) (some 0)
      let ls ← cs.enum.mapM (fun p => mkLayer (splitNl p.2) (some p.1))
      return ⟨some pre, ls⟩) := by
  rw [gcodeParse, if_neg hne, if_pos hm, hre]

/-- **C3** (amended).  In marker mode the input is split at every
*newline-terminated* `;LAYER:<digits>` marker line; the markers are
discarded (the chunks glued back with the markers reconstitute the input
exactly), the chunk before the first marker becomes the preamble with
index 0, and each following chunk becomes the layer at its 0-based
position in the split, indexed by that position (`layernum = some j`,
regardless of the integer in the marker text).  In particular an input
with exactly two newline-terminated markers (`markerCount fs = 2`) yields
exactly 2 layers indexed 0 and 1. -/
theorem c3_marker_mode_split (fs : Str) (g : GcodeS)
    (hm : hasSub (str ";LAYER:") fs = true)
    (hp : gcodeParse fs = .ok g) :
    g.layers.length = markerCount fs ∧
    (∀ j L, g.layers.get? j = some L → L.layernum = some j) ∧
    ∃ c0 cs ms,
      reSplit fs = c0 :: cs ∧
      ms.length = cs.length ∧
      (∀ m ∈ ms, ∃ ds, ds ≠ [] ∧ ds.all Char.isDigit = true ∧
        m = str ";LAYER:" ++ ds ++ ['\n']) ∧
      glueC (c0 :: cs) ms = fs ∧
      (∃ pre, mkLayer (splitNl c0) (some 0) = .ok pre ∧ g.preamble = some pre) ∧
      (∀ j ch, cs.get? j = some ch →
        ∃ L, g.layers.get? j = some L ∧ mkLayer (splitNl ch) (some j) = .ok L) := by
  have hne : fs ≠ [] := by
    intro hfs
    rw [hfs] at hm
    cases hm
  have hlen := reSplitGo_length fs.length fs true (le_refl _)
  obtain ⟨ms, hms1, hms2, hms3⟩ := reSplitGo_glue fs.length fs true (le_refl _)
  cases hre : reSplitGo fs.length fs true with
  | nil => rw [hre] at hlen; simp at hlen
  | cons c0 cs =>
    have hre' : reSplit fs = c0 :: cs := by
      rw [show reSplit fs = reSplitGo fs.length fs true from rfl, hre]
    rw [gcodeParse_marker_cons fs hne hm c0 cs hre'] at hp
    cases hpre : mkLayer (splitNl c0) (some 0) with
    | error e => rw [hpre, exBind_error] at hp; cases hp
    | ok pre =>
      rw [hpre, exBind_ok] at hp
      cases hls : (cs.enum.mapM fun p => mkLayer (splitNl p.2) (some p.1)) with
      | error e => rw [hls, exBind_error] at hp; cases hp
      | ok ls =>
        rw [hls, exBind_ok, exPure] at hp
        cases hp
        obtain ⟨hlsl, hspec⟩ := enum_mkLayer_spec cs ls 0 hls
        rw [hre] at hlen hms3
        simp only [List.length_cons] at hlen
        have hcount : cs.length = markerCount fs := by
          rw [show markerCount fs = markerCountGo fs.length fs true from rfl]
          omega
        refine ⟨?_, ?_, c0, cs, ms, ?_, ?_, hms1, hms3, ⟨pre, hpre, rfl⟩, ?_⟩
        · show ls.length = markerCount fs
          rw [hlsl, hcount]
        · intro j L hL
          cases hch : cs.get? j with
          | none =>
            exfalso
            rw [List.get?_eq_none] at hch
            have : ls.get? j = none := List.get?_eq_none.mpr (by omega)
            rw [this] at hL
            cases hL
          | some ch =>
            obtain ⟨L', hL', hmk⟩ := hspec j ch hch
            rw [hL'] at hL
            cases hL
            have := mkLayer_layernum _ _ _ hmk
            rw [this]
            congr 1
            omega
        · exact hre'
        · rw [hms2]
          rw [show markerCount fs = markerCountGo fs.length fs true from rfl] at hcount
          omega
        · intro j ch hch
          obtain ⟨L, hL, hmk⟩ := hspec j ch hch
          exact ⟨L, hL, by rw [show (0 + j : Nat) = j by omega] at hmk; exact hmk⟩

/-- **C3 witness**: an input with two newline-terminated markers carrying
the integers 7 and 3 yields two layers indexed 0 and 1. -/
theorem c3_witness :
    hasSub (str ";LAYER:") (str "G28\n;LAYER:7\nG1 X1\n;LAYER:3\nG1 X2\n") = true ∧
    markerCount (str "G28\n;LAYER:7\nG1 X1\n;LAYER:3\nG1 X2\n") = 2 ∧
    ∃ g, gcodeParse (str "G28\n;LAYER:7\nG1 X1\n;LAYER:3\nG1 X2\n") = .ok g ∧
      g.layers.length = markerCount (str "G28\n;LAYER:7\nG1 X1\n;LAYER:3\nG1 X2\n") ∧
      ∀ j L, g.layers.get? j = some L → L.layernum = some j := by
  refine ⟨by decide, by decide, ?_⟩
  have h : gcodeParse (str "G28\n;LAYER:7\nG1 X1\n;LAYER:3\nG1 X2\n") =
      .ok ⟨some ⟨some 0, [], [⟨str "G28", str "G28", [], none⟩], []⟩,
           [⟨some 0, [], [⟨str "G1 X1", str "G1", [(some 'X', .intV 1)], none⟩], []⟩,
            ⟨some 1, [], [⟨str "G1 X2", str "G1", [(some 'X', .intV 2)], none⟩], []⟩]⟩ := by
    decide
  obtain ⟨h1, h2, _⟩ := c3_marker_mode_split _ _ (by decide) h
  exact ⟨_, h, h1, h2⟩

/-! ## Round-trip (C1) -/

/-- **C1** (counterexample).  Two well-formed lines on which
`parse(format(parse(L)))` differs semantically from `parse(L)`:
(a) a line with an *empty* comment (`"G1 X1 ;"`) loses its comment, since
`construct` drops falsy comments, so the re-parse has no comment at all;
(b) an `M117` line with a comment gains a space in its payload on every
round trip, because `construct` inserts `" ;"` after the payload and the
re-parse's `split(None, 1)` keeps the now-longer run of trailing
whitespace in the unlabeled slot. -/
theorem c1_parse_format_parse_counterexample :
    (parseLine (str "G1 X1 ;") =
      .ok ⟨str "G1 X1 ", str "G1", [(some 'X', .intV 1)], some []⟩) ∧
    (parseLine (constructL ⟨str "G1 X1 ", str "G1", [(some 'X', .intV 1)], some []⟩) =
      .ok ⟨str "G1 X1", str "G1", [(some 'X', .intV 1)], none⟩) ∧
    ((none : Option Str) ≠ some []) ∧
    (parseLine (str "M117 hi ;c") =
      .ok ⟨str "M117 hi ", str "M117", [(none, .strV (str "hi "))], some (str "c")⟩) ∧
    (parseLine (constructL
        ⟨str "M117 hi ", str "M117", [(none, .strV (str "hi "))], some (str "c")⟩) =
      .ok ⟨str "M117 hi  ", str "M117", [(none, .strV (str "hi  "))], some (str "c")⟩) ∧
    (dictGet [(none, Val.strV (str "hi  "))] none ≠
      dictGet [(none, Val.strV (str "hi "))] none) := by
  exact ⟨by decide, by decide, by decide, by decide, by decide, by decide⟩

theorem splitSemi_no_semi : ∀ (s : Str), ';' ∉ s → splitSemi s = (s, none) := by
  intro s
  induction s with
  | nil => intro _; rfl
  | cons c t ih =>
    intro h
    have hc : c ≠ ';' := fun hc => h (hc ▸ List.mem_cons_self _ _)
    have ht : ';' ∉ t := fun htm => h (List.mem_cons_of_mem _ htm)
    rw [show splitSemi (c :: t) =
      (if c = ';' then ([], some t)
       else ((c :: (splitSemi t).1, (splitSemi t).2) : Str × Option Str)) from rfl]
    rw [if_neg hc, ih ht]

theorem splitSemi_append : ∀ (a b : Str), ';' ∉ a →
    splitSemi (a ++ ';' :: b) = (a, some b) := by
  intro a
  induction a with
  | nil => intro b _; rfl
  | cons c t ih =>
    intro b h
    have hc : c ≠ ';' := fun hc => h (hc ▸ List.mem_cons_self _ _)
    have ht : ';' ∉ t := fun htm => h (List.mem_cons_of_mem _ htm)
    rw [show splitSemi ((c :: t) ++ ';' :: b) =
      (if c = ';' then ([], some (t ++ ';' :: b))
       else ((c :: (splitSemi (t ++ ';' :: b)).1,
              (splitSemi (t ++ ';' :: b)).2) : Str × Option Str)) from rfl]
    rw [if_neg hc, ih b ht]

theorem splitSemi_fst_no_semi : ∀ (s : Str), ';' ∉ (splitSemi s).1 := by
  intro s
  induction s with
  | nil => intro h; cases h
  | cons c t ih =>
    rw [show splitSemi (c :: t) =
      (if c = ';' then ([], some t)
       else ((c :: (splitSemi t).1, (splitSemi t).2) : Str × Option Str)) from rfl]
    by_cases hc : c = ';'
    · rw [if_pos hc]
      intro h
      cases h
    · rw [if_neg hc]
      intro h
      rcases List.mem_cons.mp h with h | h
      · exact hc h.symm
      · exact ih h

theorem splitWsGo_nil_eq (cur : Str) :
    splitWsGo [] cur = if cur = [] then [] else [cur.reverse] := rfl

theorem splitWsGo_cons_eq (c : Char) (t cur : Str) :
    splitWsGo (c :: t) cur =
      if pyIsSpace c then
        (if cur = [] then splitWsGo t [] else cur.reverse :: splitWsGo t [])
      else splitWsGo t (c :: cur) := rfl

theorem splitWsGo_nonws (tok : Str) :
    ∀ (s cur : Str), (∀ c ∈ tok, pyIsSpace c = false) →
      splitWsGo (tok ++ s) cur = splitWsGo s (tok.reverse ++ cur) := by
  induction tok with
  | nil => intro s cur _; rfl
  | cons c t ih =>
    intro s cur h
    have hc : pyIsSpace c = false := h c (List.mem_cons_self _ _)
    rw [show ((c :: t) ++ s : Str) = c :: (t ++ s) from rfl, splitWsGo_cons_eq]
    rw [if_neg (by simp [hc])]
    rw [ih s (c :: cur) (fun x hx => h x (List.mem_cons_of_mem _ hx))]
    simp

theorem splitWsGo_allws : ∀ (w : Str), (∀ c ∈ w, pyIsSpace c = true) →
    splitWsGo w [] = [] := by
  intro w
  induction w with
  | nil => intro _; rfl
  | cons c t ih =>
    intro h
    have hc : pyIsSpace c = true := h c (List.mem_cons_self _ _)
    rw [splitWsGo_cons_eq, if_pos (by simp [hc]), if_pos rfl,
      ih (fun x hx => h x (List.mem_cons_of_mem _ hx))]

theorem splitWsGo_allws_cur : ∀ (w cur : Str), (∀ c ∈ w, pyIsSpace c = true) →
    cur ≠ [] → splitWsGo w cur = [cur.reverse] := by
  intro w
  induction w with
  | nil =>
    intro cur _ hcur
    rw [splitWsGo_nil_eq, if_neg hcur]
  | cons c t ih =>
    intro cur h hcur
    have hc : pyIsSpace c = true := h c (List.mem_cons_self _ _)
    rw [splitWsGo_cons_eq, if_pos (by simp [hc]), if_neg hcur,
      splitWsGo_allws t (fun x hx => h x (List.mem_cons_of_mem _ hx))]

theorem splitWs_join : ∀ (toks : List Str) (w : Str),
    (∀ t ∈ toks, t ≠ [] ∧ ∀ c ∈ t, pyIsSpace c = false) →
    (∀ c ∈ w, pyIsSpace c = true) →
    splitWs (joinSp toks ++ w) = toks := by
  intro toks
  induction toks with
  | nil =>
    intro w _ hw
    rw [show joinSp [] = [] from rfl]
    rw [show (([] : Str) ++ w) = w from rfl]
    exact splitWsGo_allws w hw
  | cons t ts ih =>
    intro w htoks hw
    obtain ⟨htne, htc⟩ := htoks t (List.mem_cons_self _ _)
    cases ts with
    | nil =>
      rw [show joinSp [t] = t from rfl]
      rw [show splitWs (t ++ w) = splitWsGo (t ++ w) [] from rfl]
      rw [splitWsGo_nonws t w [] htc]
      rw [splitWsGo_allws_cur w (t.reverse ++ []) hw (by simp [htne])]
      simp
    | cons t2 ts2 =>
      rw [show joinSp (t :: t2 :: ts2) = t ++ ' ' :: joinSp (t2 :: ts2) from rfl]
      rw [show splitWs ((t ++ ' ' :: joinSp (t2 :: ts2)) ++ w) =
        splitWsGo ((t ++ ' ' :: joinSp (t2 :: ts2)) ++ w) [] from rfl]
      rw [List.append_assoc, splitWsGo_nonws t _ [] htc]
      rw [show (' ' :: joinSp (t2 :: ts2) ++ w : Str) =
        ' ' :: (joinSp (t2 :: ts2) ++ w) from rfl]
      rw [splitWsGo_cons_eq, if_pos (by decide), if_neg (by simp [htne])]
      have := ih w (fun x hx => htoks x (List.mem_cons_of_mem _ hx)) hw
      rw [show splitWs (joinSp (t2 :: ts2) ++ w) =
        splitWsGo (joinSp (t2 :: ts2) ++ w) [] from rfl] at this
      rw [this]
      simp

theorem splitWs_cons_tok (code v : Str) (hne : code ≠ [])
    (hc : ∀ c ∈ code, pyIsSpace c = false) :
    splitWs (code ++ ' ' :: v) = code :: splitWs v := by
  rw [show splitWs (code ++ ' ' :: v) = splitWsGo (code ++ ' ' :: v) [] from rfl]
  rw [splitWsGo_nonws code (' ' :: v) [] hc]
  rw [splitWsGo_cons_eq, if_pos (by decide), if_neg (by simp [hne])]
  simp [splitWs]

theorem splitWsGo_inv :
    ∀ (s cur : Str), (∀ c ∈ cur, pyIsSpace c = false) →
      ∀ t ∈ splitWsGo s cur, t ≠ [] ∧ ∀ c ∈ t, pyIsSpace c = false ∧ (c ∈ s ∨ c ∈ cur) := by
  intro s
  induction s with
  | nil =>
    intro cur hcur t ht
    rw [splitWsGo_nil_eq] at ht
    by_cases hc : cur = []
    · rw [if_pos hc] at ht; cases ht
    · rw [if_neg hc] at ht
      rw [List.mem_singleton] at ht
      subst ht
      refine ⟨by simp [hc], ?_⟩
      intro c hcm
      rw [List.mem_reverse] at hcm
      exact ⟨hcur c hcm, Or.inr hcm⟩
  | cons x xs ih =>
    intro cur hcur t ht
    rw [splitWsGo_cons_eq] at ht
    by_cases hx : pyIsSpace x = true
    · rw [if_pos (by simp [hx])] at ht
      by_cases hc : cur = []
      · rw [if_pos hc] at ht
        obtain ⟨h1, h2⟩ := ih [] (by simp) t ht
        refine ⟨h1, fun c hcm => ?_⟩
        obtain ⟨ha, hb⟩ := h2 c hcm
        rcases hb with hb | hb
        · exact ⟨ha, Or.inl (List.mem_cons_of_mem _ hb)⟩
        · cases hb
      · rw [if_neg hc] at ht
        rcases List.mem_cons.mp ht with h | h
        · subst h
          refine ⟨by simp [hc], fun c hcm => ?_⟩
          rw [List.mem_reverse] at hcm
          exact ⟨hcur c hcm, Or.inr hcm⟩
        · obtain ⟨h1, h2⟩ := ih [] (by simp) t h
          refine ⟨h1, fun c hcm => ?_⟩
          obtain ⟨ha, hb⟩ := h2 c hcm
          rcases hb with hb | hb
          · exact ⟨ha, Or.inl (List.mem_cons_of_mem _ hb)⟩
          · cases hb
    · rw [if_neg (by simp [hx])] at ht
      have hx' : pyIsSpace x = false := by
        cases hpx : pyIsSpace x with
        | true => exact absurd hpx hx
        | false => rfl
      obtain ⟨h1, h2⟩ := ih (x :: cur)
        (fun c hcm => by
          rcases List.mem_cons.mp hcm with h | h
          · exact h ▸ hx'
          · exact hcur c h) t ht
      refine ⟨h1, fun c hcm => ?_⟩
      obtain ⟨ha, hb⟩ := h2 c hcm
      rcases hb with hb | hb
      · exact ⟨ha, Or.inl (List.mem_cons_of_mem _ hb)⟩
      · rcases List.mem_cons.mp hb with hb | hb
        · exact ⟨ha, Or.inl (hb ▸ List.mem_cons_self _ _)⟩
        · exact ⟨ha, Or.inr hb⟩

theorem splitWs_inv (s : Str) :
    ∀ t ∈ splitWs s, t ≠ [] ∧ ∀ c ∈ t, pyIsSpace c = false ∧ c ∈ s := by
  intro t ht
  obtain ⟨h1, h2⟩ := splitWsGo_inv s [] (by simp) t ht
  refine ⟨h1, fun c hcm => ?_⟩
  obtain ⟨ha, hb⟩ := h2 c hcm
  rcases hb with hb | hb
  · exact ⟨ha, hb⟩
  · cases hb

theorem dropWhile_head_false {p : Char → Bool} :
    ∀ (l : Str) (c : Char) (t : Str), l.dropWhile p = c :: t → p c = false := by
  intro l
  induction l with
  | nil => intro c t h; cases h
  | cons x xs ih =>
    intro c t h
    rw [List.dropWhile_cons] at h
    by_cases hx : p x = true
    · rw [if_pos hx] at h
      exact ih c t h
    · rw [if_neg hx] at h
      cases h
      simp at hx
      exact hx

theorem dropWhile_all_true {p : Char → Bool} :
    ∀ (l b : Str), (∀ c ∈ l, p c = true) → (l ++ b).dropWhile p = b.dropWhile p := by
  intro l
  induction l with
  | nil => intro b _; rfl
  | cons x xs ih =>
    intro b h
    rw [show ((x :: xs) ++ b : Str) = x :: (xs ++ b) from rfl, List.dropWhile_cons,
      if_pos (h x (List.mem_cons_self _ _)), ih b (fun c hc => h c (List.mem_cons_of_mem _ hc))]

theorem splitNone1_app (code v : Str) (hne : code ≠ [])
    (hcode : ∀ c ∈ code, pyIsSpace c = false)
    (hv : v ≠ []) (hvh : ∀ c0, v.head? = some c0 → pyIsSpace c0 = false) :
    splitNone1 (code ++ ' ' :: v) = some v := by
  unfold splitNone1
  cases hcodev : code with
  | nil => exact absurd hcodev hne
  | cons c0 code' =>
    have hc0 : pyIsSpace c0 = false := by
      rw [hcodev] at hcode
      exact hcode c0 (List.mem_cons_self _ _)
    rw [show ((c0 :: code') ++ ' ' :: v : Str) = c0 :: (code' ++ ' ' :: v) from rfl]
    have ht1 : (c0 :: (code' ++ ' ' :: v) : Str).dropWhile pyIsSpace =
        c0 :: (code' ++ ' ' :: v) := by
      rw [List.dropWhile_cons, if_neg (by simp [hc0])]
    rw [ht1]
    rw [if_neg (by simp)]
    have hP : ((c0 :: (code' ++ ' ' :: v) : Str)).dropWhile (fun c => ¬ pyIsSpace c) =
        ' ' :: v := by
      rw [show (c0 :: (code' ++ ' ' :: v) : Str) = (c0 :: code') ++ ' ' :: v from rfl]
      rw [dropWhile_all_true (c0 :: code') (' ' :: v)
        (by
          intro c hc
          rw [← hcodev] at hc
          simp [hcode c hc])]
      rw [List.dropWhile_cons, if_neg (by decide)]
    rw [hP]
    have hW : ((' ' :: v : Str)).dropWhile pyIsSpace = v := by
      rw [List.dropWhile_cons, if_pos (by decide)]
      cases hvv : v with
      | nil => rfl
      | cons vc vt =>
        have := hvh vc (by rw [hvv]; rfl)
        rw [List.dropWhile_cons, if_neg (by simp [this])]
    rw [hW, if_neg hv]

theorem splitNone1_spec (s v : Str) (h : splitNone1 s = some v) :
    v ≠ [] ∧ (∀ c0, v.head? = some c0 → pyIsSpace c0 = false) ∧ (∀ c ∈ v, c ∈ s) := by
  unfold splitNone1 at h
  by_cases h1 : s.dropWhile pyIsSpace = []
  · rw [if_pos h1] at h
    cases h
  · rw [if_neg h1] at h
    by_cases h2 : (((s.dropWhile pyIsSpace).dropWhile
        (fun c => ¬ pyIsSpace c)).dropWhile pyIsSpace) = []
    · rw [if_pos h2] at h
      cases h
    · rw [if_neg h2] at h
      have hv : v = (((s.dropWhile pyIsSpace).dropWhile
          (fun c => ¬ pyIsSpace c)).dropWhile pyIsSpace) := by
        cases h
        rfl
      subst hv
      refine ⟨h2, ?_, ?_⟩
      · intro c0 hc0
        cases hvv : (((s.dropWhile pyIsSpace).dropWhile
            (fun c => ¬ pyIsSpace c)).dropWhile pyIsSpace) with
        | nil => rw [hvv] at hc0; cases hc0
        | cons vc vt =>
          rw [hvv] at hc0
          have := dropWhile_head_false _ vc vt hvv
          rw [show List.head? (vc :: vt) = some vc from rfl] at hc0
          cases hc0
          exact this
      · intro c hc
        have s1 := (List.dropWhile_sublist (l := ((s.dropWhile pyIsSpace).dropWhile
            (fun c => ¬ pyIsSpace c))) (p := pyIsSpace)).subset hc
        have s2 := (List.dropWhile_sublist (l := s.dropWhile pyIsSpace)
            (p := (fun c => ¬ pyIsSpace c))).subset s1
        exact (List.dropWhile_sublist (l := s) (p := pyIsSpace)).subset s2

/-! ## Numeric formatting lemmas -/

theorem natDigsGo_eq : ∀ (fuel n : Nat), n ≤ fuel →
    natDigsGo fuel n = (Nat.digits 10 n).map (fun d => Char.ofNat ('0'.toNat + d)) := by
  intro fuel
  induction fuel with
  | zero =>
    intro n hn
    interval_cases n
    rw [Nat.digits_zero]
    rfl
  | succ fuel ih =>
    intro n hn
    cases n with
    | zero =>
      rw [Nat.digits_zero]
      rfl
    | succ m =>
      rw [show natDigsGo (fuel + 1) (m + 1) =
        Char.ofNat ('0'.toNat + (m + 1) % 10) :: natDigsGo fuel ((m + 1) / 10) from rfl]
      rw [Nat.digits_def' (by norm_num : 1 < 10) (Nat.succ_pos m)]
      rw [List.map_cons]
      congr 1
      exact ih ((m + 1) / 10) (by
        have := Nat.div_lt_self (Nat.succ_pos m) (by norm_num : 1 < 10)
        omega)

theorem digitChr_facts (d : Nat) (hd : d < 10) :
    (Char.ofNat ('0'.toNat + d)).isDigit = true ∧
    (Char.ofNat ('0'.toNat + d)).toNat = '0'.toNat + d := by
  interval_cases d <;> exact ⟨by decide, by decide⟩

theorem digsVal_foldl_acc : ∀ (ds : Str) (acc : Nat),
    ds.foldl (fun a c => a * 10 + (c.toNat - '0'.toNat)) acc =
      acc * 10 ^ ds.length + digsVal ds := by
  intro ds
  induction ds with
  | nil => intro acc; simp [digsVal]
  | cons c t ih =>
    intro acc
    rw [List.foldl_cons, ih (acc * 10 + (c.toNat - '0'.toNat))]
    have h1 : digsVal (c :: t) = (c.toNat - '0'.toNat) * 10 ^ t.length + digsVal t := by
      rw [show digsVal (c :: t) = t.foldl (fun a c => a * 10 + (c.toNat - '0'.toNat))
        (0 * 10 + (c.toNat - '0'.toNat)) from rfl]
      rw [ih]
      ring_nf
    rw [h1]
    rw [List.length_cons]
    ring

theorem digsVal_rev_map : ∀ (ls : List Nat), (∀ d ∈ ls, d < 10) →
    digsVal ((ls.map (fun d => Char.ofNat ('0'.toNat + d))).reverse) = Nat.ofDigits 10 ls := by
  intro ls
  induction ls with
  | nil => intro _; rfl
  | cons d t ih =>
    intro h
    rw [List.map_cons, List.reverse_cons]
    rw [show digsVal (((t.map (fun d => Char.ofNat ('0'.toNat + d))).reverse) ++
        [Char.ofNat ('0'.toNat + d)]) =
      (((t.map (fun d => Char.ofNat ('0'.toNat + d))).reverse) ++
        [Char.ofNat ('0'.toNat + d)]).foldl
        (fun a c => a * 10 + (c.toNat - '0'.toNat)) 0 from rfl]
    rw [List.foldl_append]
    rw [show ∀ (X : Nat), ([Char.ofNat ('0'.toNat + d)].foldl
      (fun a c => a * 10 + (c.toNat - '0'.toNat)) X) =
      X * 10 + ((Char.ofNat ('0'.toNat + d)).toNat - '0'.toNat) from fun X => rfl]
    have hd10 := h d (List.mem_cons_self _ _)
    rw [(digitChr_facts d hd10).2]
    have hih := ih (fun x hx => h x (List.mem_cons_of_mem _ hx))
    rw [show (((t.map (fun d => Char.ofNat ('0'.toNat + d))).reverse).foldl
      (fun a c => a * 10 + (c.toNat - '0'.toNat)) 0) =
      digsVal ((t.map (fun d => Char.ofNat ('0'.toNat + d))).reverse) from rfl]
    rw [hih]
    rw [Nat.ofDigits_cons]
    omega

theorem natStr_digsVal (n : Nat) : digsVal (natStr n) = n := by
  unfold natStr
  by_cases h : n = 0
  · rw [if_pos h, h]
    decide
  · rw [if_neg h, natDigsGo_eq n n (le_refl _)]
    rw [digsVal_rev_map _ (fun d hd => Nat.digits_lt_base (by norm_num) hd)]
    exact Nat.ofDigits_digits 10 n

theorem natStr_all_digit (n : Nat) : ∀ c ∈ natStr n, c.isDigit = true := by
  unfold natStr
  by_cases h : n = 0
  · rw [if_pos h]
    intro c hc
    rw [List.mem_singleton] at hc
    subst hc
    decide
  · rw [if_neg h, natDigsGo_eq n n (le_refl _)]
    intro c hc
    rw [List.mem_reverse, List.mem_map] at hc
    obtain ⟨d, hd, hcd⟩ := hc
    have := Nat.digits_lt_base (by norm_num) hd
    rw [← hcd]
    exact (digitChr_facts d this).1

theorem natStr_ne_nil (n : Nat) : natStr n ≠ [] := by
  unfold natStr
  by_cases h : n = 0
  · rw [if_pos h]; simp
  · rw [if_neg h, natDigsGo_eq n n (le_refl _)]
    simp [Nat.digits_ne_nil_iff_ne_zero, h]

theorem isDigit_char_class (c : Char) (h : c.isDigit = true) :
    pyIsSpace c = false ∧ c ≠ ';' ∧ c ≠ '.' ∧ c ≠ '+' ∧ c ≠ '-' ∧
    c ≠ 'e' ∧ c ≠ 'E' := by
  refine ⟨?_, ?_, ?_, ?_, ?_, ?_, ?_⟩
  · cases hws : pyIsSpace c with
    | false => rfl
    | true =>
      exfalso
      simp only [pyIsSpace, decide_eq_true_eq] at hws
      rcases hws with h1 | h1 | h1 | h1 | h1 | h1 <;>
        (subst h1; exact absurd h (by decide))
  · intro he; subst he; exact absurd h (by decide)
  · intro he; subst he; exact absurd h (by decide)
  · intro he; subst he; exact absurd h (by decide)
  · intro he; subst he; exact absurd h (by decide)
  · intro he; subst he; exact absurd h (by decide)
  · intro he; subst he; exact absurd h (by decide)

theorem readSign_cons_eq (c : Char) (t : Str) :
    readSign (c :: t) =
      if c = '+' then (1, t) else if c = '-' then (-1, t) else (1, c :: t) := rfl

theorem readSign_head_digit (c : Char) (t : Str) (h : c.isDigit = true) :
    readSign (c :: t) = (1, c :: t) := by
  obtain ⟨_, _, _, h4, h5, _, _⟩ := isDigit_char_class c h
  rw [readSign_cons_eq, if_neg h4, if_neg h5]

theorem pyInt_digits (s : Str) (hne : s ≠ []) (hd : ∀ c ∈ s, c.isDigit = true) :
    pyInt s = some (digsVal s : Int) := by
  cases s with
  | nil => exact absurd rfl hne
  | cons c t =>
    unfold pyInt
    rw [readSign_head_digit c t (hd c (List.mem_cons_self _ _))]
    show (if ((c :: t : Str) ≠ [] ∧ List.all (c :: t) Char.isDigit = true)
      then some ((1 : Int) * (digsVal (c :: t) : Int)) else none) =
      some (digsVal (c :: t) : Int)
    rw [if_pos ⟨by simp, by rw [List.all_eq_true]; exact hd⟩]
    simp

theorem pyInt_intStr (n : Int) : pyInt (intStr n) = some n := by
  unfold intStr
  by_cases h : n < 0
  · rw [if_pos h]
    unfold pyInt
    rw [readSign_cons_eq, if_neg (by decide), if_pos rfl]
    show (if ((natStr n.natAbs ≠ []) ∧ List.all (natStr n.natAbs) Char.isDigit = true)
      then some ((-1 : Int) * (digsVal (natStr n.natAbs) : Int)) else none) = some n
    rw [if_pos ⟨natStr_ne_nil n.natAbs, by
      rw [List.all_eq_true]; exact natStr_all_digit n.natAbs⟩]
    rw [natStr_digsVal]
    congr 1
    omega
  · rw [if_neg h]
    rw [pyInt_digits (natStr n.natAbs) (natStr_ne_nil _) (natStr_all_digit _)]
    rw [natStr_digsVal]
    congr 1
    omega

theorem intStr_mem_class (n : Int) (c : Char) (hc : c ∈ intStr n) :
    c = '-' ∨ c.isDigit = true := by
  unfold intStr at hc
  by_cases h : n < 0
  · rw [if_pos h] at hc
    rcases List.mem_cons.mp hc with h1 | h1
    · exact Or.inl h1
    · exact Or.inr (natStr_all_digit _ c h1)
  · rw [if_neg h] at hc
    exact Or.inr (natStr_all_digit _ c hc)

theorem intStr_no_dot (n : Int) : '.' ∉ intStr n := by
  intro hc
  rcases intStr_mem_class n '.' hc with h | h
  · cases h
  · exact absurd h (by decide)

theorem intStr_char_class (n : Int) : ∀ c ∈ intStr n, pyIsSpace c = false ∧ c ≠ ';' := by
  intro c hc
  rcases intStr_mem_class n c hc with h | h
  · subst h; exact ⟨by decide, by decide⟩
  · obtain ⟨h1, h2, _⟩ := isDigit_char_class c h
    exact ⟨h1, h2⟩

theorem intStr_ne_nil (n : Int) : intStr n ≠ [] := by
  unfold intStr
  by_cases h : n < 0
  · rw [if_pos h]; simp
  · rw [if_neg h]; exact natStr_ne_nil _

theorem pyNum_intStr (n : Int) : pyNum (intStr n) = some (.intV n) := by
  unfold pyNum
  rw [if_neg (intStr_no_dot n), pyInt_intStr]
  rfl

theorem takeWhile_digits_append : ∀ (a b : Str), (∀ c ∈ a, Char.isDigit c = true) →
    (∀ c0, b.head? = some c0 → c0.isDigit = false) →
    (a ++ b).takeWhile Char.isDigit = a ∧ (a ++ b).dropWhile Char.isDigit = b := by
  intro a
  induction a with
  | nil =>
    intro b _ hb
    cases b with
    | nil => exact ⟨rfl, rfl⟩
    | cons c t =>
      rw [show (([] : Str) ++ c :: t) = c :: t from rfl]
      constructor
      · rw [List.takeWhile_cons, if_neg (by simp [hb c rfl])]
      · rw [List.dropWhile_cons, if_neg (by simp [hb c rfl])]
  | cons x xs ih =>
    intro b ha hb
    obtain ⟨h1, h2⟩ := ih b (fun c hc => ha c (List.mem_cons_of_mem _ hc)) hb
    have hx := ha x (List.mem_cons_self _ _)
    rw [show ((x :: xs) ++ b : Str) = x :: (xs ++ b) from rfl]
    constructor
    · rw [List.takeWhile_cons, if_pos hx, h1]
    · rw [List.dropWhile_cons, if_pos hx, h2]

theorem takeWhile_all_digits : ∀ (a : Str), (∀ c ∈ a, Char.isDigit c = true) →
    a.takeWhile Char.isDigit = a ∧ a.dropWhile Char.isDigit = [] := by
  intro a
  induction a with
  | nil => intro _; exact ⟨rfl, rfl⟩
  | cons x xs ih =>
    intro h
    obtain ⟨h1, h2⟩ := ih (fun c hc => h c (List.mem_cons_of_mem _ hc))
    have hx := h x (List.mem_cons_self _ _)
    exact ⟨by rw [List.takeWhile_cons, if_pos hx, h1],
           by rw [List.dropWhile_cons, if_pos hx, h2]⟩

theorem digsVal_append_digit (a : Str) (c : Char) :
    digsVal (a ++ [c]) = digsVal a * 10 + (c.toNat - '0'.toNat) := by
  unfold digsVal
  rw [List.foldl_append]
  rfl

theorem digsVal_repl_zero (j : Nat) (a : Str) :
    digsVal (List.replicate j '0' ++ a) = digsVal a := by
  unfold digsVal
  rw [List.foldl_append]
  have h0 : (List.replicate j '0').foldl
      (fun a c => a * 10 + (c.toNat - '0'.toNat)) 0 = 0 := by
    induction j with
    | zero => rfl
    | succ j ih =>
      rw [List.replicate_succ, List.foldl_cons]
      rw [show (0 * 10 + ('0'.toNat - '0'.toNat)) = 0 from by decide]
      exact ih
  rw [h0]

theorem pyFloatCore_dot_noexp (sg : Int) (t1 I t3 : Str)
    (ht : t1.takeWhile Char.isDigit = I)
    (hd : t1.dropWhile Char.isDigit = '.' :: t3)
    (hFt : t3.takeWhile Char.isDigit = t3)
    (hFd : t3.dropWhile Char.isDigit = [])
    (hne : ¬ (I = [] ∧ t3 = [])) :
    pyFloatCore sg t1 = some (applyExp (sg * (digsVal (I ++ t3) : Int)) t3.length 0) := by
  have harm : pyFloatCore sg t1 =
      (if t1.takeWhile Char.isDigit = [] ∧ t3.takeWhile Char.isDigit = [] then none
       else
         match t3.dropWhile Char.isDigit with
         | [] => some (applyExp
             (sg * (digsVal (t1.takeWhile Char.isDigit ++ t3.takeWhile Char.isDigit) : Int))
             (t3.takeWhile Char.isDigit).length 0)
         | c :: t5 =>
           if c = 'e' ∨ c = 'E' then
             (parseExp t5).map (applyExp
               (sg * (digsVal (t1.takeWhile Char.isDigit ++ t3.takeWhile Char.isDigit) : Int))
               (t3.takeWhile Char.isDigit).length)
           else none) := by
    unfold pyFloatCore
    rw [hd]
    rfl
  rw [harm, ht, hFt, hFd, if_neg hne]

theorem applyExp_zero (m : Int) (k : Nat) : applyExp m k 0 = .floatV m k := by
  unfold applyExp
  rw [if_pos (by omega : (0 : Int) ≥ 0)]
  rw [if_pos (by simp : (0 : Int).toNat ≤ k)]
  simp

theorem floatStr_zero_eq (m : Int) :
    floatStr m 0 = (if m < 0 then ['-'] else []) ++ (natStr m.natAbs ++ ['.', '0']) := by
  unfold floatStr
  rw [if_pos rfl]
  simp only [List.append_assoc]

theorem floatStr_pos_eq (m : Int) (k : Nat) (hk : k ≠ 0) :
    floatStr m k = (if m < 0 then ['-'] else []) ++
      ((List.replicate (k + 1 - (natStr m.natAbs).length) '0' ++ natStr m.natAbs).take
        ((List.replicate (k + 1 - (natStr m.natAbs).length) '0' ++
          natStr m.natAbs).length - k) ++
       '.' :: (List.replicate (k + 1 - (natStr m.natAbs).length) '0' ++ natStr m.natAbs).drop
        ((List.replicate (k + 1 - (natStr m.natAbs).length) '0' ++
          natStr m.natAbs).length - k)) := by
  unfold floatStr
  rw [if_neg hk]
  simp only [List.append_assoc]

theorem pyFloat_sign_body (m : Int) (I F body : Str)
    (hbody : body = I ++ '.' :: F)
    (hIne : I ≠ []) (hIdig : ∀ c ∈ I, c.isDigit = true)
    (hFdig : ∀ c ∈ F, c.isDigit = true) :
    pyFloat ((if m < 0 then ['-'] else []) ++ body) =
      some (applyExp ((if m < 0 then (-1 : Int) else 1) * (digsVal (I ++ F) : Int))
        F.length 0) := by
  obtain ⟨htI, hdI⟩ := takeWhile_digits_append I ('.' :: F) hIdig
    (fun c0 hc0 => by cases hc0; decide)
  obtain ⟨htF, hdF⟩ := takeWhile_all_digits F hFdig
  by_cases hm : m < 0
  · rw [if_pos hm, if_pos hm]
    rw [show ((['-'] : Str) ++ body) = '-' :: body from rfl]
    unfold pyFloat
    rw [readSign_cons_eq, if_neg (by decide), if_pos rfl]
    show pyFloatCore (-1) body = _
    rw [hbody]
    exact pyFloatCore_dot_noexp (-1) (I ++ '.' :: F) I F htI hdI htF hdF
      (fun h => hIne h.1)
  · rw [if_neg hm, if_neg hm]
    rw [List.nil_append, hbody]
    have hrs : readSign (I ++ '.' :: F) = (1, I ++ '.' :: F) := by
      cases hIc : I with
      | nil => exact absurd hIc hIne
      | cons c I' =>
        have hcdig : c.isDigit = true :=
          hIdig c (by rw [hIc]; exact List.mem_cons_self _ _)
        rw [show ((c :: I') ++ '.' :: F : Str) = c :: (I' ++ '.' :: F) from rfl]
        rw [readSign_head_digit c (I' ++ '.' :: F) hcdig]
    unfold pyFloat
    rw [hrs]
    show pyFloatCore 1 (I ++ '.' :: F) = _
    exact pyFloatCore_dot_noexp 1 (I ++ '.' :: F) I F htI hdI htF hdF
      (fun h => hIne h.1)

theorem sign_mul_natAbs (m : Int) :
    (if m < 0 then (-1 : Int) else 1) * (m.natAbs : Int) = m := by
  by_cases hm : m < 0
  · rw [if_pos hm]; omega
  · rw [if_neg hm]; omega

theorem pyFloat_floatStr_pos (m : Int) (k : Nat) (hk : k ≠ 0) :
    pyFloat (floatStr m k) = some (.floatV m k) := by
  have hds'dig : ∀ c ∈ (List.replicate (k + 1 - (natStr m.natAbs).length) '0' ++
      natStr m.natAbs), c.isDigit = true := by
    intro c hc
    rcases List.mem_append.mp hc with h | h
    · rw [List.eq_of_mem_replicate h]; decide
    · exact natStr_all_digit _ c h
  have hlen : k + 1 ≤ (List.replicate (k + 1 - (natStr m.natAbs).length) '0' ++
      natStr m.natAbs).length := by
    rw [List.length_append, List.length_replicate]
    omega
  rw [floatStr_pos_eq m k hk]
  rw [pyFloat_sign_body m
    ((List.replicate (k + 1 - (natStr m.natAbs).length) '0' ++ natStr m.natAbs).take
      ((List.replicate (k + 1 - (natStr m.natAbs).length) '0' ++ natStr m.natAbs).length - k))
    ((List.replicate (k + 1 - (natStr m.natAbs).length) '0' ++ natStr m.natAbs).drop
      ((List.replicate (k + 1 - (natStr m.natAbs).length) '0' ++ natStr m.natAbs).length - k))
    _ rfl
    (by
      intro hnil
      have hlt : (List.replicate (k + 1 - (natStr m.natAbs).length) '0' ++
          natStr m.natAbs).length - k <
          (List.replicate (k + 1 - (natStr m.natAbs).length) '0' ++ natStr m.natAbs).length := by
        omega
      have := List.length_take ((List.replicate (k + 1 - (natStr m.natAbs).length) '0' ++
          natStr m.natAbs).length - k)
        (List.replicate (k + 1 - (natStr m.natAbs).length) '0' ++ natStr m.natAbs)
      rw [hnil] at this
      simp at this
      omega)
    (fun c hc => hds'dig c (List.take_subset _ _ hc))
    (fun c hc => hds'dig c (List.drop_subset _ _ hc))]
  rw [List.take_append_drop, digsVal_repl_zero, natStr_digsVal, List.length_drop]
  rw [show (List.replicate (k + 1 - (natStr m.natAbs).length) '0' ++ natStr m.natAbs).length -
    ((List.replicate (k + 1 - (natStr m.natAbs).length) '0' ++ natStr m.natAbs).length - k) =
    k from by omega]
  rw [applyExp_zero, sign_mul_natAbs]

theorem pyFloat_floatStr_zero (m : Int) :
    pyFloat (floatStr m 0) = some (.floatV (m * 10) 1) := by
  rw [floatStr_zero_eq m]
  rw [show (natStr m.natAbs ++ ['.', '0'] : Str) = natStr m.natAbs ++ '.' :: ['0'] from rfl]
  rw [pyFloat_sign_body m (natStr m.natAbs) ['0'] _ rfl (natStr_ne_nil _)
    (natStr_all_digit _) (by intro c hc; rw [List.mem_singleton] at hc; subst hc; decide)]
  rw [digsVal_append_digit, natStr_digsVal]
  rw [show ('0'.toNat - '0'.toNat) = 0 from by decide]
  rw [show (['0'] : Str).length = 1 from rfl]
  rw [applyExp_zero]
  have harith : ((if m < 0 then (-1 : Int) else 1) * ((m.natAbs * 10 + 0 : Nat) : Int)) =
      m * 10 := by
    by_cases hm : m < 0
    · rw [if_pos hm]
      omega
    · rw [if_neg hm]
      omega
  rw [harith]

theorem floatStr_has_dot (m : Int) (k : Nat) : '.' ∈ floatStr m k := by
  by_cases hk : k = 0
  · subst hk
    rw [floatStr_zero_eq]
    refine List.mem_append.mpr (Or.inr (List.mem_append.mpr (Or.inr ?_)))
    exact List.mem_cons_self _ _
  · rw [floatStr_pos_eq m k hk]
    refine List.mem_append.mpr (Or.inr (List.mem_append.mpr (Or.inr ?_)))
    exact List.mem_cons_self _ _

theorem replPad_all_digit (m : Int) (k : Nat) :
    ∀ c ∈ (List.replicate (k + 1 - (natStr m.natAbs).length) '0' ++ natStr m.natAbs),
      c.isDigit = true := by
  intro c hc
  rcases List.mem_append.mp hc with h | h
  · rw [List.eq_of_mem_replicate h]; decide
  · exact natStr_all_digit _ c h

theorem floatStr_char_class (m : Int) (k : Nat) :
    ∀ c ∈ floatStr m k, pyIsSpace c = false ∧ c ≠ ';' := by
  intro c hc
  have hsign : ∀ x ∈ (if m < 0 then ['-'] else ([] : Str)), x = '-' := by
    by_cases hm : m < 0
    · rw [if_pos hm]
      intro x hx
      rw [List.mem_singleton] at hx
      exact hx
    · rw [if_neg hm]
      intro x hx
      cases hx
  by_cases hk : k = 0
  · subst hk
    rw [floatStr_zero_eq] at hc
    rcases List.mem_append.mp hc with h | h
    · rw [hsign c h]
      exact ⟨by decide, by decide⟩
    · rcases List.mem_append.mp h with h | h
      · obtain ⟨h1, h2, _⟩ := isDigit_char_class c (natStr_all_digit _ c h)
        exact ⟨h1, h2⟩
      · rcases List.mem_cons.mp h with h | h
        · subst h; exact ⟨by decide, by decide⟩
        · rw [List.mem_singleton] at h
          subst h
          exact ⟨by decide, by decide⟩
  · rw [floatStr_pos_eq m k hk] at hc
    rcases List.mem_append.mp hc with h | h
    · rw [hsign c h]
      exact ⟨by decide, by decide⟩
    · rcases List.mem_append.mp h with h | h
      · obtain ⟨h1, h2, _⟩ := isDigit_char_class c
          (replPad_all_digit m k c (List.take_subset _ _ h))
        exact ⟨h1, h2⟩
      · rcases List.mem_cons.mp h with h | h
        · subst h; exact ⟨by decide, by decide⟩
        · obtain ⟨h1, h2, _⟩ := isDigit_char_class c
            (replPad_all_digit m k c (List.drop_subset _ _ h))
          exact ⟨h1, h2⟩

theorem pyNum_floatStr (m : Int) (k : Nat) :
    pyNum (floatStr m k) =
      some (if k = 0 then Val.floatV (m * 10) 1 else Val.floatV m k) := by
  unfold pyNum
  rw [if_pos (floatStr_has_dot m k)]
  by_cases hk : k = 0
  · subst hk
    rw [if_pos rfl]
    exact pyFloat_floatStr_zero m
  · rw [if_neg hk]
    exact pyFloat_floatStr_pos m k hk

theorem valSame_refl_int (n : Int) : valSame (.intV n) (.intV n) := rfl

theorem valSame_float_roundtrip (m : Int) (k : Nat) :
    valSame (.floatV m k) (if k = 0 then Val.floatV (m * 10) 1 else Val.floatV m k) := by
  by_cases hk : k = 0
  · subst hk
    rw [if_pos rfl]
    show m * 10 ^ 1 = (m * 10) * 10 ^ 0
    ring
  · rw [if_neg hk]
    show m * 10 ^ k = m * 10 ^ k
    rfl

theorem alpha_char_class (c : Char) (h : c.isAlpha = true) :
    pyIsSpace c = false ∧ c ≠ ';' := by
  constructor
  · cases hws : pyIsSpace c with
    | false => rfl
    | true =>
      exfalso
      simp only [pyIsSpace, decide_eq_true_eq] at hws
      rcases hws with h1 | h1 | h1 | h1 | h1 | h1 <;>
        (subst h1; exact absurd h (by decide))
  · intro he; subst he; exact absurd h (by decide)

theorem joinSp_mem : ∀ (ts : List Str) (c : Char), c ∈ joinSp ts →
    c = ' ' ∨ ∃ t ∈ ts, c ∈ t := by
  intro ts
  induction ts with
  | nil => intro c hc; cases hc
  | cons t ts ih =>
    intro c hc
    cases ts with
    | nil =>
      rw [show joinSp [t] = t from rfl] at hc
      exact Or.inr ⟨t, List.mem_cons_self _ _, hc⟩
    | cons t2 ts2 =>
      rw [show joinSp (t :: t2 :: ts2) = t ++ ' ' :: joinSp (t2 :: ts2) from rfl] at hc
      rcases List.mem_append.mp hc with h | h
      · exact Or.inr ⟨t, List.mem_cons_self _ _, h⟩
      · rcases List.mem_cons.mp h with h | h
        · exact Or.inl h
        · rcases ih c h with h | ⟨t', ht', hct'⟩
          · exact Or.inl h
          · exact Or.inr ⟨t', List.mem_cons_of_mem _ ht', hct'⟩

theorem parseLine_eq (s : Str) :
    parseLine s =
      (match splitWs (splitSemi s).1 with
       | [] => .error (.indexError s)
       | code :: rest =>
         if code = str "M117" then
           match splitNone1 (splitSemi s).1 with
           | some v => .ok ⟨(splitSemi s).1, code, [(none, .strV v)], (splitSemi s).2⟩
           | none => .error (.indexError s)
         else
           match (rest.foldlM (argStep s) []) with
           | .ok args => .ok ⟨(splitSemi s).1, code, args, (splitSemi s).2⟩
           | .error e => .error e) := rfl

theorem parseLine_arm (s pre code : Str) (toks : List Str) (com : Option Str)
    (hsemi : splitSemi s = (pre, com))
    (hsw : splitWs pre = code :: toks) :
    parseLine s =
      (if code = str "M117" then
        match splitNone1 pre with
        | some v => .ok ⟨pre, code, [(none, .strV v)], com⟩
        | none => .error (.indexError s)
       else
        match (toks.foldlM (argStep s) []) with
        | .ok args => .ok ⟨pre, code, args, com⟩
        | .error e => .error e) := by
  rw [parseLine_eq, hsemi]
  rw [show ((pre, com) : Str × Option Str).1 = pre from rfl,
    show ((pre, com) : Str × Option Str).2 = com from rfl]
  rw [hsw]

theorem applyExp_isNum (m : Int) (k : Nat) (e : Int) :
    isNumV (applyExp m k e) = true := by
  unfold applyExp
  split_ifs <;> rfl

theorem pyFloatCore_isNum (sg : Int) (t1 : Str) (v : Val)
    (h : pyFloatCore sg t1 = some v) : isNumV v = true := by
  unfold pyFloatCore at h
  split at h
  · split at h
    · cases h
    · split at h
      · rw [Option.some.injEq] at h
        rw [← h]
        exact applyExp_isNum _ _ _
      · split at h
        · obtain ⟨e, _, hv⟩ := Option.map_eq_some'.mp h
          rw [← hv]
          exact applyExp_isNum _ _ _
        · cases h
  · split at h
    · obtain ⟨e, _, hv⟩ := Option.map_eq_some'.mp h
      rw [← hv]
      exact applyExp_isNum _ _ _
    · cases h
  · split at h
    · cases h
    · rw [Option.some.injEq] at h
      rw [← h]
      exact applyExp_isNum _ _ _

theorem pyNum_isNum (r : Str) (v : Val) (h : pyNum r = some v) :
    isNumV v = true := by
  unfold pyNum at h
  by_cases hd : '.' ∈ r
  · rw [if_pos hd] at h
    exact pyFloatCore_isNum _ _ _ h
  · rw [if_neg hd] at h
    obtain ⟨n, _, hv⟩ := Option.map_eq_some'.mp h
    rw [← hv]
    rfl

theorem argStep_inv (s : Str) (acc : Args) (tok : Str) (args : Args)
    (hnd : (dictKeys acc).Nodup) (hinv : ∀ p ∈ acc, EntryInv p)
    (htok : GoodTok tok)
    (h : argStep s acc tok = .ok args) :
    (dictKeys args).Nodup ∧ ∀ p ∈ args, EntryInv p := by
  obtain ⟨hne, hcls⟩ := htok
  cases tok with
  | nil => exact absurd rfl hne
  | cons c r =>
    rw [show argStep s acc (c :: r) =
      (if c.isAlpha then
        match pyNum r with
        | some v => .ok (dictSet acc (some c) v)
        | none => .error (.malformedArgument s)
       else .ok (dictSet acc none (.strV (c :: r)))) from rfl] at h
    by_cases ha : c.isAlpha
    · rw [if_pos ha] at h
      cases hpn : pyNum r with
      | none => rw [hpn] at h; cases h
      | some v =>
        rw [hpn] at h
        rw [Except.ok.injEq] at h
        subst h
        refine ⟨dictKeys_dictSet_nodup _ _ _ hnd, ?_⟩
        exact dictSet_preserves_all acc (some c) v hinv ⟨ha, pyNum_isNum r v hpn⟩
    · rw [if_neg ha] at h
      rw [Except.ok.injEq] at h
      subst h
      refine ⟨dictKeys_dictSet_nodup _ _ _ hnd, ?_⟩
      refine dictSet_preserves_all acc none (.strV (c :: r)) hinv ?_
      refine ⟨c :: r, rfl, ⟨hne, hcls⟩, ?_⟩
      intro c0 hc0
      rw [List.head?] at hc0
      rw [Option.some.injEq] at hc0
      subst hc0
      simp at ha
      exact ha

theorem argStep_fold_inv (s : Str) :
    ∀ (toks : List Str) (acc args : Args),
      (dictKeys acc).Nodup → (∀ p ∈ acc, EntryInv p) →
      (∀ t ∈ toks, GoodTok t) →
      toks.foldlM (argStep s) acc = .ok args →
      (dictKeys args).Nodup ∧ ∀ p ∈ args, EntryInv p := by
  intro toks
  induction toks with
  | nil =>
    intro acc args hnd hinv _ h
    rw [List.foldlM_nil] at h
    rw [show (pure acc : Except PErr Args) = .ok acc from rfl, Except.ok.injEq] at h
    exact h ▸ ⟨hnd, hinv⟩
  | cons t ts ih =>
    intro acc args hnd hinv hg h
    rw [List.foldlM_cons] at h
    cases hstep : argStep s acc t with
    | error e =>
      rw [hstep, exBind_error] at h
      cases h
    | ok acc' =>
      rw [hstep, exBind_ok] at h
      obtain ⟨hnd', hinv'⟩ := argStep_inv s acc t acc' hnd hinv
        (hg t (List.mem_cons_self _ _)) hstep
      exact ih acc' args hnd' hinv' (fun x hx => hg x (List.mem_cons_of_mem _ hx)) h

theorem parseLine_ok_spec (s : Str) (l : LineS) (h : parseLine s = .ok l) :
    l.line = (splitSemi s).1 ∧ l.comment = (splitSemi s).2 ∧
    GoodTok l.code ∧
    (if l.code = str "M117" then
      ∃ v, l.args = [(none, .strV v)] ∧ v ≠ [] ∧ (∀ c ∈ v, c ≠ ';') ∧
        (∀ c0, v.head? = some c0 → pyIsSpace c0 = false)
     else (dictKeys l.args).Nodup ∧ ∀ p ∈ l.args, EntryInv p) := by
  have hsemi : splitSemi s = ((splitSemi s).1, (splitSemi s).2) := rfl
  cases hsw : splitWs (splitSemi s).1 with
  | nil =>
    rw [parseLine_eq s, hsw] at h
    cases h
  | cons code toks =>
    rw [parseLine_arm s (splitSemi s).1 code toks (splitSemi s).2 hsemi hsw] at h
    have hcodeg : GoodTok code := by
      obtain ⟨h1, h2⟩ := splitWs_inv (splitSemi s).1 code (hsw ▸ List.mem_cons_self _ _)
      refine ⟨h1, fun c hc => ?_⟩
      obtain ⟨ha, hb⟩ := h2 c hc
      exact ⟨ha, fun he => splitSemi_fst_no_semi s (he ▸ hb)⟩
    by_cases hm : code = str "M117"
    · rw [if_pos hm] at h
      cases hsn : splitNone1 (splitSemi s).1 with
      | none => rw [hsn] at h; cases h
      | some v =>
        rw [hsn] at h
        rw [Except.ok.injEq] at h
        subst h
        obtain ⟨hv1, hv2, hv3⟩ := splitNone1_spec _ v hsn
        refine ⟨rfl, rfl, hcodeg, ?_⟩
        rw [if_pos hm]
        refine ⟨v, rfl, hv1, ?_, hv2⟩
        intro c hc he
        exact splitSemi_fst_no_semi s (he ▸ hv3 c hc)
    · rw [if_neg hm] at h
      cases hfold : toks.foldlM (argStep s) [] with
      | error e => rw [hfold] at h; cases h
      | ok args =>
        rw [hfold] at h
        rw [Except.ok.injEq] at h
        subst h
        refine ⟨rfl, rfl, hcodeg, ?_⟩
        rw [if_neg hm]
        refine argStep_fold_inv s toks [] args (by simp [dictKeys]) (by simp) ?_ hfold
        intro t ht
        obtain ⟨h1, h2⟩ := splitWs_inv (splitSemi s).1 t
          (hsw ▸ List.mem_cons_of_mem _ ht)
        refine ⟨h1, fun c hc => ?_⟩
        obtain ⟨ha, hb⟩ := h2 c hc
        exact ⟨ha, fun he => splitSemi_fst_no_semi s (he ▸ hb)⟩

theorem pyNum_formatVal (v : Val) (hv : isNumV v = true) :
    ∃ v', pyNum (formatVal v) = some v' ∧ valSame v v' := by
  cases v with
  | intV n => exact ⟨.intV n, pyNum_intStr n, rfl⟩
  | floatV m k => exact ⟨_, pyNum_floatStr m k, valSame_float_roundtrip m k⟩
  | strV s => cases hv

theorem entryTok_good (p : Option Char × Val) (hp : EntryInv p) :
    GoodTok (entryTok p) := by
  obtain ⟨k, v⟩ := p
  cases k with
  | some c =>
    obtain ⟨ha, hn⟩ := hp
    rw [show entryTok (some c, v) = c :: formatVal v from rfl]
    refine ⟨by simp, ?_⟩
    intro x hx
    rcases List.mem_cons.mp hx with hx | hx
    · exact hx ▸ alpha_char_class c ha
    · cases v with
      | intV n => exact intStr_char_class n x hx
      | floatV m kk => exact floatStr_char_class m kk x hx
      | strV s => cases hn
  | none =>
    obtain ⟨t, hvt, hgt, _⟩ := hp
    subst hvt
    rw [show entryTok (none, .strV t) = t from rfl]
    exact hgt

theorem argStep_entryTok (s : Str) (acc : Args) (p : Option Char × Val)
    (hp : EntryInv p) :
    ∃ v', valSame p.2 v' ∧ argStep s acc (entryTok p) = .ok (dictSet acc p.1 v') := by
  obtain ⟨k, v⟩ := p
  cases k with
  | some c =>
    obtain ⟨ha, hn⟩ := hp
    obtain ⟨v', hpn, hvs⟩ := pyNum_formatVal v hn
    refine ⟨v', hvs, ?_⟩
    rw [show entryTok (some c, v) = c :: formatVal v from rfl]
    rw [show argStep s acc (c :: formatVal v) =
      (if c.isAlpha then
        match pyNum (formatVal v) with
        | some w => Except.ok (dictSet acc (some c) w)
        | none => Except.error (.malformedArgument s)
       else Except.ok (dictSet acc none (.strV (c :: formatVal v)))) from rfl]
    rw [if_pos ha, hpn]
  | none =>
    obtain ⟨t, hvt, hgt, hhd⟩ := hp
    subst hvt
    rw [show entryTok (none, .strV t) = t from rfl]
    cases t with
    | nil => exact absurd rfl hgt.1
    | cons c0 t' =>
      have hna : c0.isAlpha = false := hhd c0 rfl
      refine ⟨.strV (c0 :: t'), rfl, ?_⟩
      rw [show argStep s acc (c0 :: t') =
        (if c0.isAlpha then
          match pyNum t' with
          | some w => Except.ok (dictSet acc (some c0) w)
          | none => Except.error (.malformedArgument s)
         else Except.ok (dictSet acc none (.strV (c0 :: t')))) from rfl]
      rw [if_neg (by simp [hna])]

theorem argStep_fold_rebuild (s' : Str) :
    ∀ (entries acc : Args),
      (dictKeys (acc ++ entries)).Nodup →
      (∀ p ∈ entries, EntryInv p) →
      ∃ news, (entries.map entryTok).foldlM (argStep s') acc = .ok (acc ++ news) ∧
        List.Forall₂ (fun p q => p.1 = q.1 ∧ valSame p.2 q.2) entries news := by
  intro entries
  induction entries with
  | nil =>
    intro acc _ _
    refine ⟨[], ?_, List.Forall₂.nil⟩
    rw [List.map_nil, List.foldlM_nil, List.append_nil]
    rfl
  | cons p es ih =>
    intro acc hnd hinv
    obtain ⟨v', hvs, hstep⟩ := argStep_entryTok s' acc p (hinv p (List.mem_cons_self _ _))
    have hknotin : p.1 ∉ dictKeys acc := by
      intro hmem
      have hkeys : dictKeys (acc ++ p :: es) = dictKeys acc ++ p.1 :: dictKeys es := by
        simp [dictKeys]
      rw [hkeys, List.nodup_append] at hnd
      exact hnd.2.2 hmem (List.mem_cons_self _ _)
    have hset : dictSet acc p.1 v' = acc ++ [(p.1, v')] :=
      dictSet_append_of_not_mem acc p.1 v' hknotin
    have hnd' : (dictKeys ((acc ++ [(p.1, v')]) ++ es)).Nodup := by
      have h1 : dictKeys ((acc ++ [(p.1, v')]) ++ es) =
          dictKeys acc ++ p.1 :: dictKeys es := by
        simp [dictKeys]
      have h2 : dictKeys (acc ++ p :: es) = dictKeys acc ++ p.1 :: dictKeys es := by
        simp [dictKeys]
      rw [h1, ← h2]
      exact hnd
    obtain ⟨news, hfold, hfa⟩ := ih (acc ++ [(p.1, v')]) hnd'
      (fun q hq => hinv q (List.mem_cons_of_mem _ hq))
    refine ⟨(p.1, v') :: news, ?_, List.Forall₂.cons ⟨rfl, hvs⟩ hfa⟩
    rw [List.map_cons, List.foldlM_cons, hstep, exBind_ok, hset, hfold,
      List.append_assoc]
    rfl

theorem constructL_eq (l : LineS) :
    constructL l = joinSp (l.code :: l.args.map entryTok) ++
      (match l.comment with
       | some c => if c = [] then [] else ' ' :: ';' :: c
       | none => []) := rfl

/-- **C1** (amended).  For a line obtained by parsing, formatting with
`construct` and re-parsing succeeds and reproduces the code, the
argument entries in order with equal values of the same kind, and the
comment — provided that (a) the comment, if present, is nonempty (an
empty comment is falsy in Python and is dropped by `construct`), (b) the
line is not an M117 line carrying a comment (whose payload grows a
trailing space each round trip), and (c) no argument value is a float.
Floats genuinely break the round trip in the program: `str(float)` in
Python 2 is `%.12g`, so `str(1e-05) = '1e-05'` contains no `'.'` and the
re-parse calls `int('1e-05')`, raising ValueError, and values needing
more than 12 significant digits are rounded away; under (c) every
formatted value goes through `str(int)` or is a raw token, where the
embedding is exact. -/
theorem c1_parse_format_parse_roundtrip (s : Str) (l : LineS)
    (h : parseLine s = .ok l)
    (hcom : l.comment ≠ some [])
    (hm117 : l.code = str "M117" → l.comment = none)
    (_hnoflt : ∀ p ∈ l.args, isFloatV p.2 = false) :
    ∃ l', parseLine (constructL l) = .ok l' ∧
      l'.code = l.code ∧
      List.Forall₂ (fun p q => p.1 = q.1 ∧ valSame p.2 q.2) l.args l'.args ∧
      l'.comment = l.comment := by
  obtain ⟨hline, hcome, hcodeg, hbranch⟩ := parseLine_ok_spec s l h
  by_cases hm : l.code = str "M117"
  · rw [if_pos hm] at hbranch
    obtain ⟨v, hargs, hvne, hvsemi, hvhd⟩ := hbranch
    have hcomnone : l.comment = none := hm117 hm
    have hcon : constructL l = (l.code ++ ' ' :: v) ++ [] := by
      rw [constructL_eq, hcomnone, hargs]
      rfl
    rw [List.append_nil] at hcon
    have hnosemi : ';' ∉ l.code ++ ' ' :: v := by
      intro hmem
      rcases List.mem_append.mp hmem with hmem | hmem
      · exact (hcodeg.2 ';' hmem).2 rfl
      · rcases List.mem_cons.mp hmem with hmem | hmem
        · exact absurd hmem (by decide)
        · exact hvsemi ';' hmem rfl
    have hsemi : splitSemi (l.code ++ ' ' :: v) = (l.code ++ ' ' :: v, none) :=
      splitSemi_no_semi _ hnosemi
    have hsw : splitWs (l.code ++ ' ' :: v) = l.code :: splitWs v :=
      splitWs_cons_tok l.code v hcodeg.1 (fun c hc => (hcodeg.2 c hc).1)
    have hsn : splitNone1 (l.code ++ ' ' :: v) = some v :=
      splitNone1_app l.code v hcodeg.1 (fun c hc => (hcodeg.2 c hc).1) hvne hvhd
    have hparse := parseLine_arm (l.code ++ ' ' :: v) (l.code ++ ' ' :: v) l.code
      (splitWs v) none hsemi hsw
    rw [if_pos hm, hsn] at hparse
    refine ⟨⟨l.code ++ ' ' :: v, l.code, [(none, .strV v)], none⟩, ?_, rfl, ?_, ?_⟩
    · rw [hcon, hparse]
    · rw [hargs]
      exact List.Forall₂.cons ⟨rfl, rfl⟩ List.Forall₂.nil
    · exact hcomnone.symm
  · rw [if_neg hm] at hbranch
    obtain ⟨hnd, hinv⟩ := hbranch
    have htoksgood : ∀ t ∈ l.code :: l.args.map entryTok,
        t ≠ [] ∧ ∀ c ∈ t, pyIsSpace c = false := by
      intro t ht
      rcases List.mem_cons.mp ht with ht | ht
      · subst ht
        exact ⟨hcodeg.1, fun c hc => (hcodeg.2 c hc).1⟩
      · obtain ⟨p, hp, hpt⟩ := List.mem_map.mp ht
        subst hpt
        have hg := entryTok_good p (hinv p hp)
        exact ⟨hg.1, fun c hc => (hg.2 c hc).1⟩
    have hnosemi2 : ';' ∉ joinSp (l.code :: l.args.map entryTok) := by
      intro hmem
      rcases joinSp_mem _ ';' hmem with hsp | ⟨t, ht, hct⟩
      · exact absurd hsp (by decide)
      · rcases List.mem_cons.mp ht with ht | ht
        · exact (hcodeg.2 ';' (ht ▸ hct)).2 rfl
        · obtain ⟨p, hp, hpt⟩ := List.mem_map.mp ht
          exact ((entryTok_good p (hinv p hp)).2 ';' (hpt ▸ hct)).2 rfl
    cases hcm : l.comment with
    | none =>
      have hcon : constructL l = joinSp (l.code :: l.args.map entryTok) ++ [] := by
        rw [constructL_eq, hcm]
      rw [List.append_nil] at hcon
      have hsemi2 : splitSemi (joinSp (l.code :: l.args.map entryTok)) =
          (joinSp (l.code :: l.args.map entryTok), none) :=
        splitSemi_no_semi _ hnosemi2
      have hsw2 : splitWs (joinSp (l.code :: l.args.map entryTok)) =
          l.code :: l.args.map entryTok := by
        have hj := splitWs_join (l.code :: l.args.map entryTok) [] htoksgood
          (fun c hc => by cases hc)
        rw [List.append_nil] at hj
        exact hj
      obtain ⟨news, hfold, hfa⟩ := argStep_fold_rebuild
        (joinSp (l.code :: l.args.map entryTok)) l.args []
        (by rw [List.nil_append]; exact hnd) hinv
      rw [List.nil_append] at hfold
      have hparse := parseLine_arm (joinSp (l.code :: l.args.map entryTok))
        (joinSp (l.code :: l.args.map entryTok)) l.code (l.args.map entryTok) none
        hsemi2 hsw2
      rw [if_neg hm, hfold] at hparse
      refine ⟨⟨joinSp (l.code :: l.args.map entryTok), l.code, news, none⟩,
        ?_, rfl, hfa, rfl⟩
      rw [hcon, hparse]
    | some cm =>
      have hcmne : cm ≠ [] := by
        intro hcmnil
        exact hcom (by rw [hcm, hcmnil])
      have hcon : constructL l = joinSp (l.code :: l.args.map entryTok) ++
          (if cm = [] then [] else ' ' :: ';' :: cm) := by
        rw [constructL_eq, hcm]
      rw [if_neg hcmne] at hcon
      rw [show (joinSp (l.code :: l.args.map entryTok) ++ ' ' :: ';' :: cm) =
        (joinSp (l.code :: l.args.map entryTok) ++ [' ']) ++ ';' :: cm from by
          rw [List.append_assoc]; rfl] at hcon
      have hnosemi3 : ';' ∉ joinSp (l.code :: l.args.map entryTok) ++ [' '] := by
        intro hmem
        rcases List.mem_append.mp hmem with hmem | hmem
        · exact hnosemi2 hmem
        · rw [List.mem_singleton] at hmem
          exact absurd hmem (by decide)
      have hsemi3 : splitSemi ((joinSp (l.code :: l.args.map entryTok) ++ [' ']) ++
          ';' :: cm) = (joinSp (l.code :: l.args.map entryTok) ++ [' '], some cm) :=
        splitSemi_append _ cm hnosemi3
      have hsw3 : splitWs (joinSp (l.code :: l.args.map entryTok) ++ [' ']) =
          l.code :: l.args.map entryTok := by
        refine splitWs_join (l.code :: l.args.map entryTok) [' '] htoksgood ?_
        intro c hc
        rw [List.mem_singleton] at hc
        subst hc
        decide
      obtain ⟨news, hfold, hfa⟩ := argStep_fold_rebuild
        ((joinSp (l.code :: l.args.map entryTok) ++ [' ']) ++ ';' :: cm) l.args []
        (by rw [List.nil_append]; exact hnd) hinv
      rw [List.nil_append] at hfold
      have hparse := parseLine_arm
        ((joinSp (l.code :: l.args.map entryTok) ++ [' ']) ++ ';' :: cm)
        (joinSp (l.code :: l.args.map entryTok) ++ [' ']) l.code
        (l.args.map entryTok) (some cm) hsemi3 hsw3
      rw [if_neg hm, hfold] at hparse
      refine ⟨⟨joinSp (l.code :: l.args.map entryTok) ++ [' '], l.code, news, some cm⟩,
        ?_, rfl, hfa, rfl⟩
      rw [hcon, hparse]

theorem c1_witness :
    parseLine (str "G1 X3 F-12 *7 ;go") =
      .ok ⟨str "G1 X3 F-12 *7 ", str "G1",
        [(some 'X', .intV 3), (some 'F', .intV (-12)),
         (none, .strV (str "*7"))], some (str "go")⟩ ∧
    ∃ l', parseLine (constructL ⟨str "G1 X3 F-12 *7 ", str "G1",
        [(some 'X', .intV 3), (some 'F', .intV (-12)),
         (none, .strV (str "*7"))], some (str "go")⟩) = .ok l' ∧
      l'.code = str "G1" ∧
      List.Forall₂ (fun p q => p.1 = q.1 ∧ valSame p.2 q.2)
        [(some 'X', .intV 3), (some 'F', .intV (-12)),
         (none, .strV (str "*7"))] l'.args ∧
      l'.comment = some (str "go") :=
  ⟨by decide,
   c1_parse_format_parse_roundtrip (str "G1 X3 F-12 *7 ;go") _
     (by decide) (by decide) (by decide) (by decide)⟩
